import Mathlib

/-!
Verification development for the auction-vote room server (single source file:
an Express/ws server keeping in-memory rooms).  The core modeled here is the
room state machine (join / set_config / set_topics / lock_bids / unlock_bids /
bid / compute_winners / disconnect), the per-participant budget clamp
(`clampBidsToBudget`) and the allocation engine (`computeWinners`).

Modeling conventions:
* JS `Map`s are insertion-ordered association lists `List (String × α)`;
  `Map.get` / `Map.set` / `Map.delete` become `alGet` / `alSet` / `alDelete`
  (set on an existing key keeps its position, otherwise appends).
* JS `Set`s of strings are duplicate-free lists in insertion order; `add` and
  `delete` become `setAdd` / `setDel`.
* JS numbers carried by messages are rationals (`ℚ`); `Math.floor` is
  `Rat.floor`; stored amounts and budgets are integers (`ℤ`);
  timestamps (`Date.now()`) are naturals supplied per event; all `Date.now()`
  calls during one event read the same clock value `now`.
* `String.localeCompare` is modeled as code-point lexicographic comparison.
* JS `Array.prototype.sort` is a stable sort driven by a comparator; it is
  modeled by the stable insertion sort `stableSort` with the boolean relation
  `le a b` meaning `cmp a b ≤ 0`.
-/

set_option maxRecDepth 100000

namespace AuctionVote

/-! ## Association-list model of JS Maps -/

/-- Lookup in an insertion-ordered association list (JS `Map.get`). -/
def alGet {α : Type} : List (String × α) → String → Option α
  | [], _ => none
  | (k2, v) :: rest, k => if k2 = k then some v else alGet rest k

/-- JS `Map.set`: updates the value in place when the key exists (keeping the
entry position), otherwise appends the new entry.  JS maps never hold a key
twice, so replacing the first occurrence is a faithful model. -/
def alSet {α : Type} : List (String × α) → String → α → List (String × α)
  | [], k, v => [(k, v)]
  | (k2, v2) :: rest, k, v =>
    if k2 = k then (k, v) :: rest else (k2, v2) :: alSet rest k v

/-- JS `Map.delete`. -/
def alDelete {α : Type} (l : List (String × α)) (k : String) :
    List (String × α) :=
  l.filter (fun p => !decide (p.1 = k))

/-- JS `Set.add` on a duplicate-free insertion-ordered list. -/
def setAdd (l : List String) (x : String) : List String :=
  if x ∈ l then l else l ++ [x]

/-- JS `Set.delete`. -/
def setDel (l : List String) (x : String) : List String :=
  l.filter (fun y => !decide (y = x))

theorem alGet_alSet_self {α : Type} (l : List (String × α)) (k : String)
    (v : α) : alGet (alSet l k v) k = some v := by
  induction l with
  | nil => simp [alSet, alGet]
  | cons p rest ih =>
    obtain ⟨k2, v2⟩ := p
    by_cases h : k2 = k <;> simp [alSet, alGet, h, ih]

theorem alGet_alSet_ne {α : Type} (l : List (String × α)) (k k2 : String)
    (v : α) (hne : k2 ≠ k) : alGet (alSet l k v) k2 = alGet l k2 := by
  induction l with
  | nil => simp [alSet, alGet, Ne.symm hne]
  | cons p rest ih =>
    obtain ⟨k3, v3⟩ := p
    by_cases h : k3 = k
    · subst h
      simp [alSet, alGet, Ne.symm hne, hne]
    · by_cases h2 : k3 = k2
      · subst h2
        simp [alSet, alGet, h, hne]
      · simp [alSet, alGet, h, h2, ih]

theorem alSet_alSet_same {α : Type} (l : List (String × α)) (k : String)
    (v : α) : alSet (alSet l k v) k v = alSet l k v := by
  induction l with
  | nil => simp [alSet]
  | cons p rest ih =>
    obtain ⟨k2, v2⟩ := p
    by_cases h : k2 = k <;> simp [alSet, h, ih]

theorem alGet_alDelete_self {α : Type} (l : List (String × α)) (k : String) :
    alGet (alDelete l k) k = none := by
  induction l with
  | nil => rfl
  | cons p rest ih =>
    obtain ⟨k2, v2⟩ := p
    by_cases h : k2 = k
    · simpa [alDelete, alGet, h] using ih
    · simpa [alDelete, alGet, h] using ih

theorem alGet_alDelete_ne {α : Type} (l : List (String × α)) (k k2 : String)
    (hne : k2 ≠ k) : alGet (alDelete l k) k2 = alGet l k2 := by
  induction l with
  | nil => rfl
  | cons p rest ih =>
    obtain ⟨k3, v3⟩ := p
    by_cases h : k3 = k
    · subst h
      have h2 : ¬ k3 = k2 := fun hc => hne hc.symm
      simpa [alDelete, alGet, h2] using ih
    · by_cases h2 : k3 = k2
      · subst h2
        simp [alDelete, alGet, h]
      · simpa [alDelete, alGet, h, h2] using ih

theorem alGet_mem {α : Type} {l : List (String × α)} {k : String} {v : α}
    (h : alGet l k = some v) : (k, v) ∈ l := by
  induction l with
  | nil => simp [alGet] at h
  | cons p rest ih =>
    obtain ⟨k2, v2⟩ := p
    by_cases hp : k2 = k
    · simp only [alGet, if_pos hp] at h
      subst hp
      simp [Option.some_inj.mp h]
    · simp only [alGet, if_neg hp] at h
      exact List.mem_cons_of_mem _ (ih h)

theorem mem_alGet_of_nodup {α : Type} {l : List (String × α)} {k : String}
    {v : α} (hnd : (l.map Prod.fst).Nodup) (h : (k, v) ∈ l) :
    alGet l k = some v := by
  induction l with
  | nil => simp at h
  | cons p rest ih =>
    simp only [List.map_cons, List.nodup_cons] at hnd
    rcases List.mem_cons.mp h with h1 | h2
    · obtain ⟨k2, v2⟩ := p
      obtain ⟨hk, hv⟩ := Prod.mk.injEq .. ▸ h1.symm
      simp [alGet, hk, hv]
    · obtain ⟨k2, v2⟩ := p
      have hp : ¬ k2 = k := by
        intro hc
        exact hnd.1 (hc ▸ (List.mem_map.mpr ⟨(k, v), h2, rfl⟩))
      simp [alGet, hp, ih hnd.2 h2]

/-! ## Stable sort (model of JS `Array.prototype.sort`) -/

/-- Inserts `a` after every element `b` of `l` with `le b a`; used left to
right this realizes a stable sort. -/
def insertStable {α : Type} (le : α → α → Bool) (a : α) : List α → List α
  | [] => [a]
  | b :: l => if le b a then b :: insertStable le a l else a :: b :: l

/-- Stable sort: fold the input left to right, inserting each element after
all currently-placed elements that compare less-or-equal to it.  This is the
unique stable sort for a total preorder comparator, hence a faithful model of
JS `Array.prototype.sort` with a consistent comparator. -/
def stableSort {α : Type} (le : α → α → Bool) (l : List α) : List α :=
  l.foldl (fun acc a => insertStable le a acc) []

theorem insertStable_perm {α : Type} (le : α → α → Bool) (a : α)
    (l : List α) : List.Perm (insertStable le a l) (a :: l) := by
  induction l with
  | nil => rfl
  | cons b l ih =>
    by_cases h : le b a = true
    · simpa [insertStable, h] using
        (ih.cons b).trans (List.Perm.swap a b l)
    · simp [insertStable, h]

theorem stableSort_perm {α : Type} (le : α → α → Bool) (l : List α) :
    List.Perm (stableSort le l) l := by
  have key : ∀ (l acc : List α),
      List.Perm (l.foldl (fun acc a => insertStable le a acc) acc)
        (acc ++ l) := by
    intro l
    induction l with
    | nil => simp
    | cons a l ih =>
      intro acc
      have h1 : List.Perm
          (l.foldl (fun acc a => insertStable le a acc)
            (insertStable le a acc))
          (insertStable le a acc ++ l) := ih _
      have h2 : List.Perm (insertStable le a acc ++ l) ((a :: acc) ++ l) :=
        (insertStable_perm le a acc).append_right l
      have h3 : List.Perm ((a :: acc) ++ l) (acc ++ a :: l) := by
        simpa using (@List.perm_middle _ a acc l).symm
      exact h1.trans (h2.trans h3)
  simpa using key l []

theorem mem_stableSort {α : Type} (le : α → α → Bool) (l : List α) (x : α) :
    x ∈ stableSort le l ↔ x ∈ l :=
  (stableSort_perm le l).mem_iff

theorem pairwise_insertStable {α : Type} {le : α → α → Bool}
    (htrans : ∀ a b c, le a b = true → le b c = true → le a c = true)
    (htotal : ∀ a b, le a b = true ∨ le b a = true)
    (a : α) {l : List α} (hl : l.Pairwise (fun x y => le x y = true)) :
    (insertStable le a l).Pairwise (fun x y => le x y = true) := by
  induction l with
  | nil => simp [insertStable]
  | cons b l ih =>
    rcases List.pairwise_cons.mp hl with ⟨hb, hl2⟩
    by_cases h : le b a = true
    · simp only [insertStable, if_pos h]
      refine List.pairwise_cons.mpr ⟨?_, ih hl2⟩
      intro x hx
      rcases List.mem_cons.mp ((insertStable_perm le a l).mem_iff.mp hx)
        with h1 | h2
      · exact h1 ▸ h
      · exact hb x h2
    · simp only [insertStable, if_neg h]
      have hab : le a b = true := by
        rcases htotal a b with h1 | h1
        · exact h1
        · exact absurd h1 h
      refine List.pairwise_cons.mpr ⟨?_, hl⟩
      intro x hx
      rcases List.mem_cons.mp hx with h1 | h2
      · exact h1 ▸ hab
      · exact htrans a b x hab (hb x h2)

theorem sorted_stableSort {α : Type} {le : α → α → Bool}
    (htrans : ∀ a b c, le a b = true → le b c = true → le a c = true)
    (htotal : ∀ a b, le a b = true ∨ le b a = true) (l : List α) :
    (stableSort le l).Pairwise (fun x y => le x y = true) := by
  have key : ∀ (l acc : List α),
      acc.Pairwise (fun x y => le x y = true) →
      (l.foldl (fun acc a => insertStable le a acc) acc).Pairwise
        (fun x y => le x y = true) := by
    intro l
    induction l with
    | nil => intro acc h; simpa using h
    | cons a l ih =>
      intro acc h
      exact ih _ (pairwise_insertStable htrans htotal a h)
  exact key l [] (by simp)

/-! ## Data model

The room state shape of the source:
`{ id, hostId, config: {budget, revealBids, allowJoinAfterLock}, locked,
topics: [{id, name, capacity}], players: Map(playerId -> {id, name, spent}),
bids: Map(playerId -> Map(topicId -> {amount, ts})) }`.
The live `ws` handle kept inside each player record is transport plumbing and
not part of the modeled core. -/

/-- A stored bid `{ amount, ts }`. -/
structure Bid where
  amount : ℤ
  ts : ℕ
deriving DecidableEq

/-- One participant's per-topic bid map, `Map(topicId -> Bid)`. -/
abbrev PerTopic := List (String × Bid)

/-- The room's bid table, `Map(playerId -> PerTopic)`. -/
abbrev BidsMap := List (String × PerTopic)

/-- A topic `{ id, name, capacity }`. -/
structure Topic where
  id : String
  name : String
  capacity : ℕ
deriving DecidableEq

/-- Room configuration. -/
structure Config where
  budget : ℤ
  revealBids : Bool
  allowJoinAfterLock : Bool
deriving DecidableEq

/-- A participant record (without the transport handle). -/
structure Player where
  id : String
  name : String
  spent : ℤ
deriving DecidableEq

/-- Full room state. -/
structure Room where
  id : String
  hostId : Option String
  config : Config
  locked : Bool
  topics : List Topic
  players : List (String × Player)
  bids : BidsMap
deriving DecidableEq

/-- The room value `getOrCreateRoom` builds for an unseen code: default config
`budget = 100, revealBids = true, allowJoinAfterLock = true`, unlocked, no
host, no topics, no players, no bids. -/
def freshRoom (roomId : String) : Room :=
  { id := roomId
    hostId := none
    config := { budget := 100, revealBids := true, allowJoinAfterLock := true }
    locked := false
    topics := []
    players := []
    bids := [] }

/-- Raw sum of the stored amounts of one per-topic bid map. -/
def rawTotal (per : PerTopic) : ℤ :=
  (per.map (fun e => e.2.amount)).sum

/-- The participant's current raw bid total (0 when they have no bid map);
this is the `spent` value `recomputeSpent` computes. -/
def totalOf (room : Room) (pid : String) : ℤ :=
  match alGet room.bids pid with
  | none => 0
  | some per => rawTotal per

/-- Source `recomputeSpent(room, playerId)`: recomputes the participant's
`spent` as the sum of their current bid amounts and stores it on the player
record when the player exists. -/
def recomputeSpent (room : Room) (pid : String) : Room :=
  match alGet room.players pid with
  | none => room
  | some p =>
    { room with players := alSet room.players pid { p with spent := totalOf room pid } }

/-! ## Budget clamp (`clampBidsToBudget`) -/

/-- Working entry of the clamp: `{ topicId, amount, ts }` with
`amount = Math.max(0, Math.floor(b.amount))`. -/
structure CEntry where
  topicId : String
  amount : ℤ
  ts : ℕ
deriving DecidableEq

/-- Comparator of the clamp sort, as a boolean less-or-equal: ascending by
amount, and within equal amounts newest (largest timestamp) first. -/
def clampLE (a b : CEntry) : Bool :=
  if a.amount = b.amount then decide (b.ts ≤ a.ts)
  else decide (a.amount < b.amount)

/-- The trim walk of the clamp: subtract `min(amount, over)` from each
positive entry in order until the overage is exhausted (`break` once
`over ≤ 0`, skip entries already at zero). -/
def trimEntries : List CEntry → ℤ → List CEntry
  | [], _ => []
  | e :: rest, over =>
    if over ≤ 0 then e :: rest
    else if e.amount ≤ 0 then e :: trimEntries rest over
    else
      let tk := min e.amount over
      { e with amount := e.amount - tk } :: trimEntries rest (over - tk)

/-- Sum of the working amounts of a clamp entry list (the source's
`entries.reduce((s, e) => s + e.amount, 0)`). -/
def entSum (l : List CEntry) : ℤ :=
  (l.map CEntry.amount).sum

/-- Source `clampBidsToBudget(room, playerId)`: if the participant's total
(after re-flooring and re-clamping each stored amount at 0) fits the budget,
just recompute `spent`; otherwise sort the entries with `clampLE`, trim the
overage, and write the trimmed entries back (in sorted order) with all
timestamps set to the clamp's execution time `now`. -/
def clampBidsToBudget (now : ℕ) (room : Room) (pid : String) : Room :=
  let budget := room.config.budget
  match alGet room.bids pid with
  | none => room
  | some per =>
    let entries : List CEntry :=
      per.map (fun e => ⟨e.1, max 0 e.2.amount, e.2.ts⟩)
    let total : ℤ := entSum entries
    if total ≤ budget then recomputeSpent room pid
    else
      let sorted := stableSort clampLE entries
      let trimmed := trimEntries sorted (total - budget)
      let newMap : PerTopic :=
        trimmed.map (fun e => (e.topicId, ⟨e.amount, now⟩))
      recomputeSpent { room with bids := alSet room.bids pid newMap } pid

theorem entSum_cons (e : CEntry) (l : List CEntry) :
    entSum (e :: l) = e.amount + entSum l := by
  simp [entSum]

theorem entSum_nonneg {l : List CEntry} (h : ∀ e ∈ l, 0 ≤ e.amount) :
    0 ≤ entSum l := by
  induction l with
  | nil => simp [entSum]
  | cons e rest ih =>
    rw [entSum_cons]
    have h1 := h e (List.mem_cons_self e rest)
    have h2 := ih (fun x hx => h x (List.mem_cons_of_mem e hx))
    omega

theorem trimEntries_nonneg {l : List CEntry} {over : ℤ}
    (h : ∀ e ∈ l, 0 ≤ e.amount) :
    ∀ e ∈ trimEntries l over, 0 ≤ e.amount := by
  induction l generalizing over with
  | nil => simp [trimEntries]
  | cons e rest ih =>
    intro x hx
    have he := h e (List.mem_cons_self e rest)
    have hr : ∀ e ∈ rest, 0 ≤ e.amount :=
      fun y hy => h y (List.mem_cons_of_mem e hy)
    by_cases h0 : over ≤ 0
    · simp only [trimEntries, if_pos h0] at hx
      exact h x hx
    · by_cases h1 : e.amount ≤ 0
      · simp only [trimEntries, if_neg h0, if_pos h1] at hx
        rcases List.mem_cons.mp hx with h2 | h2
        · exact h2 ▸ he
        · exact ih hr x h2
      · simp only [trimEntries, if_neg h0, if_neg h1] at hx
        rcases List.mem_cons.mp hx with h2 | h2
        · subst h2
          simp only
          omega
        · exact ih hr x h2

theorem trimEntries_sum {l : List CEntry} {over : ℤ}
    (h : ∀ e ∈ l, 0 ≤ e.amount) (h0 : 0 ≤ over) (h1 : over ≤ entSum l) :
    entSum (trimEntries l over) = entSum l - over := by
  induction l generalizing over with
  | nil =>
    simp only [entSum, List.map_nil, List.sum_nil] at h1 ⊢
    simp [trimEntries]
    omega
  | cons e rest ih =>
    have he := h e (List.mem_cons_self e rest)
    have hr : ∀ x ∈ rest, 0 ≤ x.amount :=
      fun y hy => h y (List.mem_cons_of_mem e hy)
    have hrs : 0 ≤ entSum rest := entSum_nonneg hr
    rw [entSum_cons] at h1
    by_cases hov : over ≤ 0
    · have : over = 0 := le_antisymm hov h0
      subst this
      simp [trimEntries]
    · by_cases hz : e.amount ≤ 0
      · have hea : e.amount = 0 := le_antisymm hz he
        have := @ih over hr h0 (by omega)
        simp only [trimEntries, if_neg hov, if_pos hz]
        rw [entSum_cons, entSum_cons, this, hea]
        ring
      · simp only [trimEntries, if_neg hov, if_neg hz]
        have hle : over - min e.amount over ≤ entSum rest := by
          rcases le_total e.amount over with hc | hc
          · rw [min_eq_left hc]; omega
          · rw [min_eq_right hc]; omega
        have := @ih (over - min e.amount over) hr (by omega) hle
        rw [entSum_cons, this, entSum_cons]
        ring

theorem mapFst_alSet_of_get {α : Type} {l : List (String × α)} {k : String}
    {v0 : α} (h : alGet l k = some v0) (v : α) :
    (alSet l k v).map Prod.fst = l.map Prod.fst := by
  induction l with
  | nil => simp [alGet] at h
  | cons p rest ih =>
    obtain ⟨k2, v2⟩ := p
    by_cases hp : k2 = k
    · subst hp
      simp [alSet]
    · simp only [alGet, if_neg hp] at h
      simp [alSet, hp, ih h]

theorem recomputeSpent_bids (room : Room) (pid : String) :
    (recomputeSpent room pid).bids = room.bids := by
  unfold recomputeSpent
  split <;> rfl

theorem recomputeSpent_config (room : Room) (pid : String) :
    (recomputeSpent room pid).config = room.config := by
  unfold recomputeSpent
  split <;> rfl

theorem recomputeSpent_locked (room : Room) (pid : String) :
    (recomputeSpent room pid).locked = room.locked := by
  unfold recomputeSpent
  split <;> rfl

theorem recomputeSpent_topics (room : Room) (pid : String) :
    (recomputeSpent room pid).topics = room.topics := by
  unfold recomputeSpent
  split <;> rfl

theorem recomputeSpent_hostId (room : Room) (pid : String) :
    (recomputeSpent room pid).hostId = room.hostId := by
  unfold recomputeSpent
  split <;> rfl

theorem recomputeSpent_playersKeys (room : Room) (pid : String) :
    (recomputeSpent room pid).players.map Prod.fst =
      room.players.map Prod.fst := by
  unfold recomputeSpent
  split
  · rfl
  · rename_i p h
    exact mapFst_alSet_of_get h _

theorem recomputeSpent_idem (room : Room) (pid : String) :
    recomputeSpent (recomputeSpent room pid) pid = recomputeSpent room pid := by
  rcases hp : alGet room.players pid with _ | p
  · have h1 : recomputeSpent room pid = room := by
      unfold recomputeSpent
      rw [hp]
    rw [h1]
    exact h1
  · have h1 : recomputeSpent room pid =
        { room with
          players := alSet room.players pid { p with spent := totalOf room pid } } := by
      unfold recomputeSpent
      rw [hp]
    rw [h1]
    unfold recomputeSpent
    rw [show alGet
          ({ room with
            players := alSet room.players pid
              { p with spent := totalOf room pid } } : Room).players pid =
          some { p with spent := totalOf room pid } from
        alGet_alSet_self _ _ _]
    dsimp only
    congr 1
    exact alSet_alSet_same _ _ _

/-- All stored bid amounts of the room are non-negative. -/
def BidsNonneg (room : Room) : Prop :=
  ∀ pid per, alGet room.bids pid = some per → ∀ e ∈ per, 0 ≤ e.2.amount

theorem rawTotal_le_entSum (per : PerTopic) :
    rawTotal per ≤
      entSum (per.map (fun e => (⟨e.1, max 0 e.2.amount, e.2.ts⟩ : CEntry))) := by
  unfold rawTotal entSum
  rw [List.map_map]
  apply List.sum_le_sum
  intro e _
  simp only [Function.comp_apply]
  exact le_max_right 0 e.2.amount

theorem rawTotal_eq_entSum_of_nonneg {per : PerTopic}
    (h : ∀ e ∈ per, 0 ≤ e.2.amount) :
    rawTotal per =
      entSum (per.map (fun e => (⟨e.1, max 0 e.2.amount, e.2.ts⟩ : CEntry))) := by
  unfold rawTotal entSum
  rw [List.map_map]
  congr 1
  apply List.map_congr_left
  intro e he
  simp only [Function.comp_apply]
  exact (max_eq_right (h e he)).symm

theorem entSum_perm {l l2 : List CEntry} (h : List.Perm l l2) :
    entSum l = entSum l2 :=
  List.Perm.sum_eq (h.map CEntry.amount)

theorem clampBidsToBudget_config (now : ℕ) (room : Room) (pid : String) :
    (clampBidsToBudget now room pid).config = room.config := by
  unfold clampBidsToBudget
  split
  · rfl
  · dsimp only
    split <;> rw [recomputeSpent_config]

theorem clampBidsToBudget_locked (now : ℕ) (room : Room) (pid : String) :
    (clampBidsToBudget now room pid).locked = room.locked := by
  unfold clampBidsToBudget
  split
  · rfl
  · dsimp only
    split <;> rw [recomputeSpent_locked]

theorem clampBidsToBudget_topics (now : ℕ) (room : Room) (pid : String) :
    (clampBidsToBudget now room pid).topics = room.topics := by
  unfold clampBidsToBudget
  split
  · rfl
  · dsimp only
    split <;> rw [recomputeSpent_topics]

theorem clampBidsToBudget_hostId (now : ℕ) (room : Room) (pid : String) :
    (clampBidsToBudget now room pid).hostId = room.hostId := by
  unfold clampBidsToBudget
  split
  · rfl
  · dsimp only
    split <;> rw [recomputeSpent_hostId]

theorem clampBidsToBudget_playersKeys (now : ℕ) (room : Room) (pid : String) :
    (clampBidsToBudget now room pid).players.map Prod.fst =
      room.players.map Prod.fst := by
  unfold clampBidsToBudget
  split
  · rfl
  · dsimp only
    split <;> rw [recomputeSpent_playersKeys]

theorem clampBidsToBudget_bids_other (now : ℕ) (room : Room)
    (pid q : String) (hne : q ≠ pid) :
    alGet (clampBidsToBudget now room pid).bids q = alGet room.bids q := by
  unfold clampBidsToBudget
  split
  · rfl
  · dsimp only
    split
    · rw [recomputeSpent_bids]
    · rw [recomputeSpent_bids]
      exact alGet_alSet_ne _ _ _ _ hne

theorem clampBidsToBudget_totalOf_other (now : ℕ) (room : Room)
    (pid q : String) (hne : q ≠ pid) :
    totalOf (clampBidsToBudget now room pid) q = totalOf room q := by
  unfold totalOf
  rw [clampBidsToBudget_bids_other now room pid q hne]

theorem entries_nonneg (per : PerTopic) :
    ∀ e ∈ per.map (fun e => (⟨e.1, max 0 e.2.amount, e.2.ts⟩ : CEntry)),
      0 ≤ e.amount := by
  intro e he
  rcases List.mem_map.mp he with ⟨y, _, rfl⟩
  exact le_max_left _ _

theorem sorted_entries_nonneg (per : PerTopic) :
    ∀ e ∈ stableSort clampLE
      (per.map (fun e => (⟨e.1, max 0 e.2.amount, e.2.ts⟩ : CEntry))),
      0 ≤ e.amount := by
  intro e he
  exact entries_nonneg per e ((mem_stableSort _ _ _).mp he)

theorem entSum_sorted (per : PerTopic) :
    entSum (stableSort clampLE
      (per.map (fun e => (⟨e.1, max 0 e.2.amount, e.2.ts⟩ : CEntry)))) =
    entSum (per.map (fun e => (⟨e.1, max 0 e.2.amount, e.2.ts⟩ : CEntry))) :=
  entSum_perm (stableSort_perm _ _)

theorem rawTotal_map_pairs (l : List CEntry) (now : ℕ) :
    rawTotal (l.map (fun e => (e.topicId, (⟨e.amount, now⟩ : Bid)))) =
      entSum l := by
  unfold rawTotal entSum
  rw [List.map_map]
  rfl

theorem totalOf_recompute_setBids (room : Room) (pid : String)
    (nm : PerTopic) :
    totalOf (recomputeSpent { room with bids := alSet room.bids pid nm } pid)
      pid = rawTotal nm := by
  unfold totalOf
  rw [recomputeSpent_bids]
  dsimp only
  rw [alGet_alSet_self]

/-- After the clamp, the participant's raw total is at most the budget
(provided the budget is non-negative, which holds in every reachable room). -/
theorem clampBidsToBudget_totalOf_self (now : ℕ) (room : Room) (pid : String)
    (hb : 0 ≤ room.config.budget) :
    totalOf (clampBidsToBudget now room pid) pid ≤ room.config.budget := by
  unfold clampBidsToBudget
  split
  · rename_i h
    unfold totalOf
    rw [h]
    exact hb
  · rename_i per h
    dsimp only
    split
    · rename_i htot
      have heq : totalOf (recomputeSpent room pid) pid = totalOf room pid := by
        unfold totalOf
        rw [recomputeSpent_bids]
      rw [heq]
      unfold totalOf
      rw [h]
      exact le_trans (rawTotal_le_entSum per) htot
    · rename_i htot
      push_neg at htot
      rw [totalOf_recompute_setBids, rawTotal_map_pairs]
      rw [trimEntries_sum (sorted_entries_nonneg per) (by omega)
        (by rw [entSum_sorted]; omega)]
      rw [entSum_sorted]
      omega

/-- The clamp never stores a negative amount. -/
theorem clampBidsToBudget_nonneg (now : ℕ) (room : Room) (pid : String)
    (h : BidsNonneg room) : BidsNonneg (clampBidsToBudget now room pid) := by
  intro q per2 hq e he
  by_cases hqp : q = pid
  · subst hqp
    revert hq
    unfold clampBidsToBudget
    split
    · intro hq
      exact h q per2 hq e he
    · rename_i per hper
      dsimp only
      split
      · intro hq
        rw [recomputeSpent_bids] at hq
        exact h q per2 hq e he
      · intro hq
        rw [recomputeSpent_bids] at hq
        dsimp only at hq
        rw [alGet_alSet_self] at hq
        rcases Option.some_inj.mp hq with rfl
        rcases List.mem_map.mp he with ⟨c, hc, rfl⟩
        exact trimEntries_nonneg (sorted_entries_nonneg per) c hc
  · rw [clampBidsToBudget_bids_other now room pid q hqp] at hq
    exact h q per2 hq e he

/-- The trim walk keeps each entry in place, preserving its topic id and
timestamp, never increasing its amount, and never making it negative. -/
theorem trimEntries_shape (l : List CEntry) (over : ℤ) :
    List.Forall₂ (fun e e2 => e2.topicId = e.topicId ∧ e2.ts = e.ts ∧
      e2.amount ≤ e.amount ∧ (0 ≤ e.amount → 0 ≤ e2.amount))
      l (trimEntries l over) := by
  induction l generalizing over with
  | nil => simp [trimEntries]
  | cons e rest ih =>
    by_cases h0 : over ≤ 0
    · simp only [trimEntries, if_pos h0]
      exact List.Forall₂.cons ⟨rfl, rfl, le_refl _, fun h => h⟩
        (List.forall₂_same.mpr (fun x _ => ⟨rfl, rfl, le_refl _, fun h => h⟩))
    · by_cases h1 : e.amount ≤ 0
      · simp only [trimEntries, if_neg h0, if_pos h1]
        exact List.Forall₂.cons ⟨rfl, rfl, le_refl _, fun h => h⟩ (ih _)
      · simp only [trimEntries, if_neg h0, if_neg h1]
        refine List.Forall₂.cons ⟨rfl, rfl, ?_, ?_⟩ (ih _) <;>
          simp only <;> omega

theorem forall2_imp_mem {α β : Type} {R S : α → β → Prop} {l : List α}
    {l2 : List β} (h : List.Forall₂ R l l2)
    (himp : ∀ a ∈ l, ∀ b, R a b → S a b) : List.Forall₂ S l l2 := by
  induction h with
  | nil => exact List.Forall₂.nil
  | cons hr hrest ih =>
    exact List.Forall₂.cons
      (himp _ (List.mem_cons_self _ _) _ hr)
      (ih (fun a ha b hb => himp a (List.mem_cons_of_mem _ ha) b hb))

theorem forall2_exists_mem {α β : Type} {R : α → β → Prop} {l : List α}
    {l2 : List β} (h : List.Forall₂ R l l2) {a : α} (ha : a ∈ l) :
    ∃ b ∈ l2, R a b := by
  induction h with
  | nil => simp at ha
  | cons hr _ ih =>
    rcases List.mem_cons.mp ha with h1 | h2
    · exact ⟨_, List.mem_cons_self _ _, h1 ▸ hr⟩
    · rcases ih h2 with ⟨b, hb, hrb⟩
      exact ⟨b, List.mem_cons_of_mem _ hb, hrb⟩

theorem forall2_exists_mem_right {α β : Type} {R : α → β → Prop}
    {l : List α} {l2 : List β} (h : List.Forall₂ R l l2) {b : β}
    (hb : b ∈ l2) : ∃ a ∈ l, R a b := by
  induction h with
  | nil => simp at hb
  | cons hr _ ih =>
    rcases List.mem_cons.mp hb with h1 | h2
    · exact ⟨_, List.mem_cons_self _ _, h1 ▸ hr⟩
    · rcases ih h2 with ⟨a, ha, hra⟩
      exact ⟨a, List.mem_cons_of_mem _ ha, hra⟩

theorem trimEntries_mapTopic (l : List CEntry) (over : ℤ) :
    (trimEntries l over).map CEntry.topicId = l.map CEntry.topicId := by
  induction l generalizing over with
  | nil => simp [trimEntries]
  | cons e rest ih =>
    by_cases h0 : over ≤ 0
    · simp [trimEntries, if_pos h0]
    · by_cases h1 : e.amount ≤ 0
      · simp only [trimEntries, if_neg h0, if_pos h1, List.map_cons]
        rw [ih]
      · simp only [trimEntries, if_neg h0, if_neg h1, List.map_cons]
        rw [ih]

theorem alGet_eq_none_iff {α : Type} (l : List (String × α)) (k : String) :
    alGet l k = none ↔ k ∉ l.map Prod.fst := by
  induction l with
  | nil => simp [alGet]
  | cons p rest ih =>
    obtain ⟨k2, v2⟩ := p
    by_cases h : k2 = k
    · subst h
      simp [alGet]
    · simp [alGet, h, ih, Ne.symm h]

theorem mapFst_alSet_of_none {α : Type} {l : List (String × α)} {k : String}
    (h : alGet l k = none) (v : α) :
    (alSet l k v).map Prod.fst = l.map Prod.fst ++ [k] := by
  induction l with
  | nil => simp [alSet]
  | cons p rest ih =>
    obtain ⟨k2, v2⟩ := p
    by_cases hp : k2 = k
    · simp only [alGet, if_pos hp] at h
      cases h
    · simp only [alGet, if_neg hp] at h
      simp [alSet, hp, ih h]

theorem nodup_keys_alSet {α : Type} {l : List (String × α)} (k : String)
    (v : α) (h : (l.map Prod.fst).Nodup) :
    ((alSet l k v).map Prod.fst).Nodup := by
  rcases hg : alGet l k with _ | v0
  · rw [mapFst_alSet_of_none hg]
    have hk : k ∉ l.map Prod.fst := (alGet_eq_none_iff l k).mp hg
    refine List.Nodup.append h (List.nodup_singleton k) ?_
    intro x hx hc
    rw [List.mem_singleton] at hc
    subst hc
    exact hk hx
  · rw [mapFst_alSet_of_get hg]
    exact h

/-- When the participant's working total already fits the budget, the clamp
does not touch the bid table. -/
theorem clamp_bids_within (now : ℕ) (room : Room) (pid : String)
    (h : ∀ per, alGet room.bids pid = some per →
      entSum (per.map (fun e => (⟨e.1, max 0 e.2.amount, e.2.ts⟩ : CEntry))) ≤
        room.config.budget) :
    (clampBidsToBudget now room pid).bids = room.bids := by
  unfold clampBidsToBudget
  split
  · rfl
  · rename_i per hper
    dsimp only
    rw [if_pos (h per hper)]
    exact recomputeSpent_bids room pid

/-- A room on which `recomputeSpent` is a fixed point and whose participant
already fits the budget is a fixed point of the clamp. -/
theorem clamp_fixed (now : ℕ) (r : Room) (pid : String)
    (hrec : recomputeSpent r pid = r)
    (h : ∀ per, alGet r.bids pid = some per →
      entSum (per.map (fun e => (⟨e.1, max 0 e.2.amount, e.2.ts⟩ : CEntry))) ≤
        r.config.budget) :
    clampBidsToBudget now r pid = r := by
  unfold clampBidsToBudget
  split
  · rfl
  · rename_i per hper
    dsimp only
    rw [if_pos (h per hper)]
    exact hrec

/-- Characterization of the clamp's over-budget branch: the participant's map
is replaced by a written-back list `nm` that is pointwise related to the
sorted working entries, carries the clamp time as timestamp everywhere, and
sums exactly to the budget. -/
theorem clamp_over_result (now : ℕ) (room : Room) (pid : String)
    (per : PerTopic) (hbid : alGet room.bids pid = some per)
    (htot : ¬ entSum (per.map (fun e =>
      (⟨e.1, max 0 e.2.amount, e.2.ts⟩ : CEntry))) ≤ room.config.budget) :
    ∃ nm : PerTopic,
      clampBidsToBudget now room pid =
        recomputeSpent { room with bids := alSet room.bids pid nm } pid ∧
      List.Forall₂ (fun e p => p.1 = e.topicId ∧ p.2.amount ≤ e.amount ∧
          0 ≤ p.2.amount ∧ p.2.ts = now)
        (stableSort clampLE (per.map (fun e =>
          (⟨e.1, max 0 e.2.amount, e.2.ts⟩ : CEntry)))) nm ∧
      (0 ≤ room.config.budget → rawTotal nm = room.config.budget) ∧
      nm.map Prod.fst = (stableSort clampLE (per.map (fun e =>
        (⟨e.1, max 0 e.2.amount, e.2.ts⟩ : CEntry)))).map CEntry.topicId := by
  refine ⟨(trimEntries (stableSort clampLE (per.map (fun e =>
      (⟨e.1, max 0 e.2.amount, e.2.ts⟩ : CEntry))))
      (entSum (per.map (fun e => (⟨e.1, max 0 e.2.amount, e.2.ts⟩ : CEntry))) -
        room.config.budget)).map
      (fun e => (e.topicId, (⟨e.amount, now⟩ : Bid))), ?_, ?_, ?_, ?_⟩
  · unfold clampBidsToBudget
    rw [hbid]
    dsimp only
    rw [if_neg htot]
  · rw [List.forall₂_map_right_iff]
    have hsh := trimEntries_shape (stableSort clampLE (per.map (fun e =>
      (⟨e.1, max 0 e.2.amount, e.2.ts⟩ : CEntry))))
      (entSum (per.map (fun e => (⟨e.1, max 0 e.2.amount, e.2.ts⟩ : CEntry))) -
        room.config.budget)
    refine forall2_imp_mem hsh ?_
    intro e he e2 hr
    exact ⟨hr.1, hr.2.2.1, hr.2.2.2 (sorted_entries_nonneg per e he), rfl⟩
  · intro hb
    rw [rawTotal_map_pairs]
    rw [trimEntries_sum (sorted_entries_nonneg per) (by omega)
      (by rw [entSum_sorted]; omega)]
    rw [entSum_sorted]
    ring
  · rw [List.map_map]
    exact trimEntries_mapTopic _ _

/-- The clamp is idempotent on every room with a non-negative budget (every
reachable room has budget in [1, 10000]). -/
theorem clampBidsToBudget_idem (now now2 : ℕ) (room : Room) (pid : String)
    (hb : 0 ≤ room.config.budget) :
    clampBidsToBudget now2 (clampBidsToBudget now room pid) pid =
      clampBidsToBudget now room pid := by
  rcases hbid : alGet room.bids pid with _ | per
  · have h1 : ∀ t : ℕ, clampBidsToBudget t room pid = room := by
      intro t
      unfold clampBidsToBudget
      rw [hbid]
    rw [h1 now]
    exact h1 now2
  · by_cases htot : entSum (per.map (fun e =>
        (⟨e.1, max 0 e.2.amount, e.2.ts⟩ : CEntry))) ≤ room.config.budget
    · have h1 : clampBidsToBudget now room pid = recomputeSpent room pid := by
        unfold clampBidsToBudget
        rw [hbid]
        dsimp only
        rw [if_pos htot]
      rw [h1]
      apply clamp_fixed
      · exact recomputeSpent_idem room pid
      · intro per2 hper2
        rw [recomputeSpent_bids, hbid] at hper2
        cases Option.some_inj.mp hper2
        rw [recomputeSpent_config]
        exact htot
    · obtain ⟨nm, h1, hrel, hsum, -⟩ :=
        clamp_over_result now room pid per hbid htot
      rw [h1]
      apply clamp_fixed
      · exact recomputeSpent_idem _ _
      · intro per2 hper2
        rw [recomputeSpent_bids] at hper2
        dsimp only at hper2
        rw [alGet_alSet_self] at hper2
        cases Option.some_inj.mp hper2
        rw [recomputeSpent_config]
        have hnn : ∀ e ∈ nm, 0 ≤ e.2.amount := by
          intro e he
          rcases forall2_exists_mem_right hrel he with ⟨c, _, hc⟩
          exact hc.2.2.1
        rw [← rawTotal_eq_entSum_of_nonneg hnn]
        rw [hsum hb]

/-! ## Allocation engine (`computeWinners`)

The source takes the whole room but reads only `room.topics` and `room.bids`
(it also reads `room.config.budget` into a local that is never used), so the
model takes topics and bids directly. -/

/-- Code-point lexicographic comparison on strings, the model of
`String.localeCompare(...) ≤ 0`. -/
def strLEaux : List Char → List Char → Bool
  | [], _ => true
  | _ :: _, [] => false
  | c :: cs, d :: ds =>
    if c < d then true else if d < c then false else strLEaux cs ds

/-- Boolean string less-or-equal via `strLEaux`. -/
def strLE (a b : String) : Bool :=
  strLEaux a.data b.data

/-- A candidate row `{ playerId, amount, ts }` of a topic's bid list. -/
structure Cand where
  playerId : String
  amount : ℤ
  ts : ℕ
deriving DecidableEq

/-- Candidate ranking comparator as boolean less-or-equal: higher amount
first; tie → earlier timestamp first; tie → lexicographically smaller player
id first. -/
def candLE (a b : Cand) : Bool :=
  if a.amount = b.amount then
    (if a.ts = b.ts then strLE a.playerId b.playerId else decide (a.ts < b.ts))
  else decide (b.amount < a.amount)

/-- Unsorted candidate list of one topic: every participant whose bid map has
an entry for the topic with floored amount strictly positive (stored amounts
are already integers, so `Math.floor` is the identity here). -/
def rawCands (bids : BidsMap) (topicId : String) : List Cand :=
  bids.filterMap (fun pe =>
    match alGet pe.2 topicId with
    | none => none
    | some b =>
      let amount := max 0 b.amount
      if amount ≤ 0 then none
      else some ⟨pe.1, amount, b.ts⟩)

/-- The sorted per-topic bid list (`bidLists.get(t.id)`). -/
def bidList (bids : BidsMap) (topicId : String) : List Cand :=
  stableSort candLE (rawCands bids topicId)

/-- Mutable state of the allocation: `winnersByTopic` (JS `Set`s in insertion
order) and `nextIndex`, both keyed by topic id.  Missing keys read as the
empty set / 0, matching the source's `?? []` and `?? 0` defaults. -/
structure AllocSt where
  winners : String → List String
  nextIdx : String → ℕ

theorem AllocSt.ext2 {a b : AllocSt} (hw : ∀ id, a.winners id = b.winners id)
    (hn : ∀ id, a.nextIdx id = b.nextIdx id) : a = b := by
  obtain ⟨w1, n1⟩ := a
  obtain ⟨w2, n2⟩ := b
  simp only [AllocSt.mk.injEq]
  exact ⟨funext hw, funext hn⟩

/-- Initial allocation state: every topic's winner set empty, every pointer
at 0. -/
def initSt : AllocSt :=
  { winners := fun _ => [], nextIdx := fun _ => 0 }

/-- Step 1 for one topic: tentatively seat the top `min(capacity, |list|)`
candidates (duplicates across topics allowed) and set the topic's pointer
past them. -/
def step1Topic (bl : String → List Cand) (st : AllocSt) (t : Topic) :
    AllocSt :=
  let list := bl t.id
  let k := min t.capacity list.length
  { winners := fun id =>
      if id = t.id then
        ((list.take k).map Cand.playerId).foldl setAdd (st.winners t.id)
      else st.winners id
    nextIdx := fun id => if id = t.id then k else st.nextIdx id }

/-- Step 1 over all topics. -/
def step1 (topics : List Topic) (bl : String → List Cand) : AllocSt :=
  topics.foldl (step1Topic bl) initSt

/-- One row of `buildPlayerWins()` output. -/
structure WinEntry where
  topicId : String
  amount : ℤ
  ts : ℕ
deriving DecidableEq

/-- The topics a player currently wins, with that player's amount/timestamp
taken from the first matching row of the topic's bid list (the source's
`byPlayer` first-occurrence lookup). -/
def playerWinsOf (topics : List Topic) (bl : String → List Cand)
    (st : AllocSt) (p : String) : List WinEntry :=
  topics.filterMap (fun t =>
    if p ∈ st.winners t.id then
      match (bl t.id).find? (fun c => decide (c.playerId = p)) with
      | none => none
      | some c => some ⟨t.id, c.amount, c.ts⟩
    else none)

/-- Keep-resolution comparator: highest amount kept; tie → earlier timestamp
kept; tie → lexicographically smaller topic id kept. -/
def keepLE (a b : WinEntry) : Bool :=
  if a.amount = b.amount then
    (if a.ts = b.ts then strLE a.topicId b.topicId else decide (a.ts < b.ts))
  else decide (b.amount < a.amount)

/-- The topic a multi-winning player keeps (`keepByPlayer`); `none` when the
player wins at most one topic. -/
def keepOf (topics : List Topic) (bl : String → List Cand) (st : AllocSt)
    (p : String) : Option String :=
  let wins := playerWinsOf topics bl st p
  if wins.length ≤ 1 then none
  else (stableSort keepLE wins).head?.map WinEntry.topicId

/-- The id list of a topic list. -/
def topicIds (topics : List Topic) : List String :=
  topics.map Topic.id

/-- The removal phase: every multi-winning player is deleted from every topic
other than the one they keep. -/
def removalApply (topics : List Topic) (bl : String → List Cand)
    (st : AllocSt) : AllocSt :=
  { st with winners := fun id =>
      if id ∈ topicIds topics then
        (st.winners id).filter (fun p =>
          match keepOf topics bl st p with
          | none => true
          | some k => decide (k = id))
      else st.winners id }

/-- Whether the removal phase deleted anybody (its contribution to the
`changed` flag). -/
def removalChanged (topics : List Topic) (bl : String → List Cand)
    (st : AllocSt) : Bool :=
  topics.any (fun t => (st.winners t.id).any (fun p =>
    match keepOf topics bl st p with
    | none => false
    | some k => decide (k ≠ t.id)))

/-- The set of players currently winning some topic (`winningPlayers`). -/
def allWinners (topics : List Topic) (st : AllocSt) : List String :=
  topics.foldl (fun acc t => (st.winners t.id).foldl setAdd acc) []

/-- The refill while-loop for one topic, with explicit fuel
`list.length - idx` (each iteration advances `idx`, so this fuel makes the
recursion equivalent to the source's `while` loop). -/
def refillLoop (list : List Cand) (cap : ℕ) :
    ℕ → ℕ → List String → List String → Bool →
      ℕ × List String × List String × Bool
  | 0, idx, w, wp, ch => (idx, w, wp, ch)
  | fuel + 1, idx, w, wp, ch =>
    if h : w.length < cap ∧ idx < list.length then
      let cand := list.get ⟨idx, h.2⟩
      if cand.playerId ∈ w then refillLoop list cap fuel (idx + 1) w wp ch
      else if cand.playerId ∈ wp then
        refillLoop list cap fuel (idx + 1) w wp ch
      else
        refillLoop list cap fuel (idx + 1) (w ++ [cand.playerId])
          (wp ++ [cand.playerId]) true
    else (idx, w, wp, ch)

/-- The refill phase for one topic: skipped when already at capacity,
otherwise run the while-loop from the stored pointer, admitting candidates
not already winning anywhere. -/
def refillTopic (bl : String → List Cand)
    (acc : AllocSt × List String × Bool) (t : Topic) :
    AllocSt × List String × Bool :=
  let st := acc.1
  let wp := acc.2.1
  let ch := acc.2.2
  if t.capacity ≤ (st.winners t.id).length then acc
  else
    let list := bl t.id
    let idx := st.nextIdx t.id
    let r := refillLoop list t.capacity (list.length - idx) idx
      (st.winners t.id) wp ch
    ({ winners := fun id => if id = t.id then r.2.1 else st.winners id
       nextIdx := fun id => if id = t.id then r.1 else st.nextIdx id },
      r.2.2.1, r.2.2.2)

/-- One full pass of the resolution loop: removal phase, then refill phase,
returning the new state and the pass's `changed` flag. -/
def onePass (topics : List Topic) (bl : String → List Cand) (st : AllocSt) :
    AllocSt × Bool :=
  let chRem := removalChanged topics bl st
  let st1 := removalApply topics bl st
  let wp0 := allWinners topics st1
  let r := topics.foldl (refillTopic bl) (st1, wp0, chRem)
  (r.1, r.2.2)

/-- The resolution loop `while (changed && safety++ < 1000)`, with the fuel
playing the role of the safety counter.  The returned boolean is `true`
exactly when the loop exited because a pass produced no change (rather than
by exhausting the safety ceiling). -/
def resolveLoop (topics : List Topic) (bl : String → List Cand) :
    ℕ → AllocSt → AllocSt × Bool
  | 0, st => (st, false)
  | fuel + 1, st =>
    let r := onePass topics bl st
    if r.2 then resolveLoop topics bl fuel r.1 else (r.1, true)

/-- The result object: `winnersByTopic` (topic id → winner array, built by JS
object assignment over the topic list) and the inverted
`assignmentByPlayer`. -/
structure WinnersResult where
  winnersByTopic : List (String × List String)
  assignmentByPlayer : List (String × String)
deriving DecidableEq

/-- Source `computeWinners`: build sorted bid lists, tentatively seat top
capacity per topic, resolve duplicates / refill vacancies until a pass
changes nothing (with the 1000-pass safety ceiling), then build the output. -/
def computeWinners (topics : List Topic) (bids : BidsMap) : WinnersResult :=
  let bl := fun id => bidList bids id
  let st0 := step1 topics bl
  let final := (resolveLoop topics bl 1000 st0).1
  { winnersByTopic :=
      topics.foldl (fun acc t => alSet acc t.id (final.winners t.id)) []
    assignmentByPlayer :=
      topics.foldl (fun acc t =>
        (final.winners t.id).foldl (fun a p => alSet a p t.id) acc) [] }

/-! ## Room state machine (the `ws.on` message and close handlers)

Events are modeled per room: the transport layer resolves each message to the
issuing participant id `pid` and the room it targets.  `now` is the value all
`Date.now()` calls read during the event; `genId` supplies the `nanoid(6)`
values consumed (indexed by position) when `set_topics` entries come without
an id.  Snapshot payloads (`roomSnapshot`) are presentation plumbing and are
not modeled beyond which notifications are emitted; the `winners` payload is
kept because claims speak about it. -/

/-- One raw entry of a `set_topics` message (`{id?, name?, capacity?}`). -/
structure RawTopic where
  id : Option String
  name : Option String
  capacity : Option ℚ

/-- Inbound message payloads.  Numeric fields are rationals (JS numbers),
optional fields are `Option`s; `set_topics none` models a non-array
`msg.topics`, and `set_config` boolean fields are `some b` exactly when the
supplied value is actually boolean. -/
inductive Msg where
  | join (roomId : Option String) (name : Option String)
  | set_config (budget : Option ℚ) (revealBids : Option Bool)
      (allowJoinAfterLock : Option Bool)
  | set_topics (topics : Option (List RawTopic))
  | lock_bids
  | unlock_bids
  | bid (topicId : Option String) (amount : Option ℚ)
  | compute_winners
  | disconnect

/-- Outbound notifications attributable to one event. -/
inductive Out where
  | errorMsg (message : String)
  | joined (pid : String)
  | room_update
  | winners (res : WinnersResult)
deriving DecidableEq

/-- Result of applying one event: the new room, the notifications, and
whether the room was deleted from the store (only on a last disconnect). -/
structure StepResult where
  room : Room
  outs : List Out
  evict : Bool
deriving DecidableEq

/-- Join name normalization:
`String(msg.name ?? "Player").trim().slice(0, 32) || "Player"`. -/
def normName (name : Option String) : String :=
  let s := ((name.getD "Player").trim).take 32
  if s = "" then "Player" else s

/-- Topic name normalization:
`String(t.name ?? "Topic").trim().slice(0, 80) || "Topic"`. -/
def normTopicName (name : Option String) : String :=
  let s := ((name.getD "Topic").trim).take 80
  if s = "" then "Topic" else s

/-- Room code normalization: `String(msg.roomId ?? "").trim().toUpperCase()`. -/
def normRoomId (roomId : Option String) : String :=
  ((roomId.getD "").trim).toUpper

/-- Bid amount normalization:
`Math.max(0, Math.floor(Number(msg.amount ?? 0)))`. -/
def floorAmount (q : Option ℚ) : ℤ :=
  max 0 (Rat.floor (q.getD 0))

/-- Budget normalization:
`Math.max(1, Math.min(10000, Math.floor(msg.budget ?? room.config.budget)))`
(the stored budget is an integer, so flooring it is the identity). -/
def normBudget (q : Option ℚ) (current : ℤ) : ℤ :=
  max 1 (min 10000 (match q with
    | some b => Rat.floor b
    | none => current))

/-- Capacity normalization:
`Math.max(1, Math.min(20, Math.floor(t.capacity ?? 1)))`; the result is at
least 1, so storing it as a natural via `toNat` is faithful. -/
def normCapacity (q : Option ℚ) : ℕ :=
  (max 1 (min 20 (match q with
    | some c => Rat.floor c
    | none => 1))).toNat

/-- One entry of the replacement topic list built by `set_topics`. -/
def buildTopic (genId : ℕ → String) (iv : ℕ × RawTopic) : Topic :=
  { id := iv.2.id.getD (genId iv.1)
    name := normTopicName iv.2.name
    capacity := normCapacity iv.2.capacity }

/-- The `join` handler body, after the transport resolved the room. -/
def applyJoin (room : Room) (pid : String) (name : Option String) :
    StepResult :=
  if room.locked ∧ ¬ room.config.allowJoinAfterLock then
    ⟨room, [Out.errorMsg "Room is locked."], false⟩
  else
    let h1 : Option String :=
      match room.hostId with
      | none => some pid
      | some h => some h
    let r1 := { room with hostId := h1 }
    let r2 := { r1 with players := alSet r1.players pid ⟨pid, normName name, 0⟩ }
    let r3 :=
      if (alGet r2.bids pid).isSome then r2
      else { r2 with bids := alSet r2.bids pid [] }
    let r4 := recomputeSpent r3 pid
    ⟨r4, [Out.joined pid, Out.room_update], false⟩

/-- The `set_topics` per-participant cleanup: drop bids on deleted topics,
recompute `spent`, re-clamp. -/
def pruneAndClamp (ids : List String) (now : ℕ) (r : Room) (q : String) :
    Room :=
  let b2 : BidsMap :=
    match alGet r.bids q with
    | none => r.bids
    | some per => alSet r.bids q (per.filter (fun e => e.1 ∈ ids))
  let r2 := { r with bids := b2 }
  clampBidsToBudget now (recomputeSpent r2 q) q

/-- Applies one inbound event to a room (the source's `ws.on("message")`
dispatch plus the `ws.on("close")` handler for `disconnect`). -/
def step (room : Room) (pid : String) (now : ℕ) (genId : ℕ → String) :
    Msg → StepResult
  | .join roomId name =>
    let rid := normRoomId roomId
    if rid = "" then ⟨room, [Out.errorMsg "Room code required."], false⟩
    else if rid ≠ room.id then
      -- The registry resolves this join to a different room; this room is
      -- untouched by the event.
      ⟨room, [], false⟩
    else applyJoin room pid name
  | .set_config budget revealBids allowJoinAfterLock =>
    if (alGet room.players pid).isNone then ⟨room, [], false⟩
    else if room.hostId ≠ some pid then ⟨room, [], false⟩
    else
      let r1 := { room with config :=
        { budget := normBudget budget room.config.budget
          revealBids := revealBids.getD room.config.revealBids
          allowJoinAfterLock :=
            allowJoinAfterLock.getD room.config.allowJoinAfterLock } }
      let r2 := (r1.players.map Prod.fst).foldl
        (fun r q => clampBidsToBudget now r q) r1
      ⟨r2, [Out.room_update], false⟩
  | .set_topics topics =>
    if (alGet room.players pid).isNone then ⟨room, [], false⟩
    else if room.hostId ≠ some pid then ⟨room, [], false⟩
    else
      let topicsRaw := topics.getD []
      let newTopics := ((topicsRaw.take 50).enum).map (buildTopic genId)
      let r1 := { room with topics := newTopics }
      let ids := topicIds newTopics
      let r2 := (r1.bids.map Prod.fst).foldl (pruneAndClamp ids now) r1
      ⟨r2, [Out.room_update], false⟩
  | .lock_bids =>
    if (alGet room.players pid).isNone then ⟨room, [], false⟩
    else if room.hostId ≠ some pid then ⟨room, [], false⟩
    else ⟨{ room with locked := true }, [Out.room_update], false⟩
  | .unlock_bids =>
    if (alGet room.players pid).isNone then ⟨room, [], false⟩
    else if room.hostId ≠ some pid then ⟨room, [], false⟩
    else ⟨{ room with locked := false }, [Out.room_update], false⟩
  | .bid topicId amount =>
    if (alGet room.players pid).isNone then ⟨room, [], false⟩
    else if room.locked then ⟨room, [], false⟩
    else
      let tid := topicId.getD ""
      let a := floorAmount amount
      if ¬ room.topics.any (fun t => decide (t.id = tid)) then
        ⟨room, [], false⟩
      else
        let per := (alGet room.bids pid).getD []
        let per2 := alSet per tid ⟨a, now⟩
        let r1 := { room with bids := alSet room.bids pid per2 }
        let r2 := clampBidsToBudget now r1 pid
        ⟨r2, [Out.room_update], false⟩
  | .compute_winners =>
    if (alGet room.players pid).isNone then ⟨room, [], false⟩
    else if room.hostId ≠ some pid then ⟨room, [], false⟩
    else ⟨room, [Out.winners (computeWinners room.topics room.bids)], false⟩
  | .disconnect =>
    match alGet room.players pid with
    | none => ⟨room, [], false⟩
    | some _ =>
      let players2 := alDelete room.players pid
      let bids2 := alDelete room.bids pid
      let host2 :=
        if room.hostId = some pid then players2.head?.map Prod.fst
        else room.hostId
      let r := { room with players := players2, bids := bids2, hostId := host2 }
      if players2.isEmpty then ⟨r, [], true⟩
      else ⟨r, [Out.room_update], false⟩

/-! ## The budget invariant (spec §8: for every participant, after every
event, the sum of stored bids is at most the budget and no amount is
negative) -/

theorem alGet_isSome_iff {α : Type} (l : List (String × α)) (k : String) :
    (alGet l k).isSome = true ↔ k ∈ l.map Prod.fst := by
  rcases h : alGet l k with _ | v
  · simp only [Option.isSome_none, Bool.false_eq_true, false_iff]
    exact (alGet_eq_none_iff l k).mp h
  · simp only [Option.isSome_some, true_iff]
    exact List.mem_map.mpr ⟨(k, v), alGet_mem h, rfl⟩

theorem mem_alSet {α : Type} {l : List (String × α)} {k : String} {v : α}
    {x : String × α} (h : x ∈ alSet l k v) : x = (k, v) ∨ x ∈ l := by
  induction l with
  | nil => simpa [alSet] using h
  | cons p rest ih =>
    obtain ⟨k2, v2⟩ := p
    by_cases hp : k2 = k
    · rcases List.mem_cons.mp (by simpa [alSet, hp] using h) with h1 | h2
      · exact Or.inl h1
      · exact Or.inr (List.mem_cons_of_mem _ h2)
    · rcases List.mem_cons.mp (by simpa [alSet, hp] using h) with h1 | h2
      · exact Or.inr (h1 ▸ List.mem_cons_self _ _)
      · rcases ih h2 with h3 | h3
        · exact Or.inl h3
        · exact Or.inr (List.mem_cons_of_mem _ h3)

theorem clampBidsToBudget_bids_isSome (now : ℕ) (room : Room)
    (pid q : String) :
    (alGet (clampBidsToBudget now room pid).bids q).isSome =
      (alGet room.bids q).isSome := by
  by_cases hq : q = pid
  · subst hq
    unfold clampBidsToBudget
    split
    · rfl
    · rename_i per hper
      dsimp only
      split
      · rw [recomputeSpent_bids]
      · rw [recomputeSpent_bids]
        dsimp only
        rw [alGet_alSet_self, hper]
        rfl
  · rw [clampBidsToBudget_bids_other now room pid q hq]

/-- The room invariant maintained by every event: budget in [1, 10000], all
stored amounts non-negative, every bid-table key is a player, and every
player's total is within the budget. -/
def Inv (room : Room) : Prop :=
  1 ≤ room.config.budget ∧ room.config.budget ≤ 10000 ∧
  BidsNonneg room ∧
  (∀ q, (alGet room.bids q).isSome = true →
    (alGet room.players q).isSome = true) ∧
  (∀ q, (alGet room.players q).isSome = true →
    totalOf room q ≤ room.config.budget)

theorem inv_freshRoom (rid : String) : Inv (freshRoom rid) := by
  refine ⟨by norm_num [freshRoom], by norm_num [freshRoom], ?_, ?_, ?_⟩
  · intro q per h
    simp [freshRoom, alGet] at h
  · intro q h
    simp [freshRoom, alGet] at h
  · intro q h
    simp [freshRoom, alGet] at h

theorem foldStep_config (f : Room → String → Room)
    (hconfig : ∀ r q, (f r q).config = r.config) :
    ∀ (L : List String) (r : Room), (L.foldl f r).config = r.config := by
  intro L
  induction L with
  | nil => intro r; rfl
  | cons a L ih =>
    intro r
    rw [List.foldl_cons, ih, hconfig]

theorem foldStep_total_notin (f : Room → String → Room)
    (hother : ∀ r q q2, q2 ≠ q → alGet (f r q).bids q2 = alGet r.bids q2) :
    ∀ (L : List String) (r : Room) (q : String),
    q ∉ L → totalOf (L.foldl f r) q = totalOf r q := by
  intro L
  induction L with
  | nil => intro r q _; rfl
  | cons a L ih =>
    intro r q hq
    rw [List.mem_cons, not_or] at hq
    rw [List.foldl_cons, ih _ _ hq.2]
    unfold totalOf
    rw [hother _ _ _ hq.1]

theorem foldStep_total_mem (f : Room → String → Room)
    (hconfig : ∀ r q, (f r q).config = r.config)
    (hother : ∀ r q q2, q2 ≠ q → alGet (f r q).bids q2 = alGet r.bids q2)
    (hself : ∀ r q, 0 ≤ r.config.budget →
      totalOf (f r q) q ≤ r.config.budget) :
    ∀ (L : List String) (r : Room) (q : String),
    0 ≤ r.config.budget → q ∈ L →
    totalOf (L.foldl f r) q ≤ r.config.budget := by
  intro L
  induction L with
  | nil => intro r q _ hq; simp at hq
  | cons a L ih =>
    intro r q hb hq
    rw [List.foldl_cons]
    by_cases hqL : q ∈ L
    · have := ih (f r a) q (by rw [hconfig]; exact hb) hqL
      rwa [hconfig] at this
    · have hqa : q = a := by
        rcases List.mem_cons.mp hq with h | h
        · exact h
        · exact absurd h hqL
      subst hqa
      rw [foldStep_total_notin f hother L (f r q) q hqL]
      exact hself r q hb

theorem foldStep_nonneg (f : Room → String → Room)
    (hnn : ∀ r q, BidsNonneg r → BidsNonneg (f r q)) :
    ∀ (L : List String) (r : Room),
    BidsNonneg r → BidsNonneg (L.foldl f r) := by
  intro L
  induction L with
  | nil => intro r h; exact h
  | cons a L ih =>
    intro r h
    rw [List.foldl_cons]
    exact ih _ (hnn _ _ h)

theorem foldStep_some (f : Room → String → Room)
    (hsome : ∀ r q q2,
      (alGet (f r q).bids q2).isSome = (alGet r.bids q2).isSome) :
    ∀ (L : List String) (r : Room) (q : String),
    (alGet (L.foldl f r).bids q).isSome = (alGet r.bids q).isSome := by
  intro L
  induction L with
  | nil => intro r q; rfl
  | cons a L ih =>
    intro r q
    rw [List.foldl_cons, ih, hsome]

theorem foldStep_playersKeys (f : Room → String → Room)
    (hpk : ∀ r q,
      (f r q).players.map Prod.fst = r.players.map Prod.fst) :
    ∀ (L : List String) (r : Room),
    (L.foldl f r).players.map Prod.fst = r.players.map Prod.fst := by
  intro L
  induction L with
  | nil => intro r; rfl
  | cons a L ih =>
    intro r
    rw [List.foldl_cons, ih, hpk]



theorem alGet_alSet_isSome {α : Type} (l : List (String × α)) (k q : String)
    (v : α) : (alGet (alSet l k v) q).isSome = true ↔
      q = k ∨ (alGet l q).isSome = true := by
  by_cases h : q = k
  · subst h
    simp [alGet_alSet_self]
  · rw [alGet_alSet_ne _ _ _ _ h]
    simp [h]

theorem clamp_total_self_generic (now : ℕ) (r2 : Room) (q : String)
    (hb : 0 ≤ r2.config.budget) :
    totalOf (clampBidsToBudget now (recomputeSpent r2 q) q) q ≤
      r2.config.budget := by
  have h := clampBidsToBudget_totalOf_self now (recomputeSpent r2 q) q
    (by rw [recomputeSpent_config]; exact hb)
  rwa [recomputeSpent_config] at h

theorem pac_config (ids : List String) (now : ℕ) (r : Room) (q : String) :
    (pruneAndClamp ids now r q).config = r.config := by
  unfold pruneAndClamp
  rw [clampBidsToBudget_config, recomputeSpent_config]

theorem pac_bids_other (ids : List String) (now : ℕ) (r : Room)
    (q q2 : String) (h : q2 ≠ q) :
    alGet (pruneAndClamp ids now r q).bids q2 = alGet r.bids q2 := by
  unfold pruneAndClamp
  rw [clampBidsToBudget_bids_other _ _ _ _ h, recomputeSpent_bids]
  dsimp only
  split
  · rfl
  · exact alGet_alSet_ne _ _ _ _ h

theorem pac_total_self (ids : List String) (now : ℕ) (r : Room) (q : String)
    (hb : 0 ≤ r.config.budget) :
    totalOf (pruneAndClamp ids now r q) q ≤ r.config.budget := by
  unfold pruneAndClamp
  exact clamp_total_self_generic now _ q hb

theorem pac_nonneg (ids : List String) (now : ℕ) (r : Room) (q : String)
    (h : BidsNonneg r) : BidsNonneg (pruneAndClamp ids now r q) := by
  unfold pruneAndClamp
  apply clampBidsToBudget_nonneg
  intro p per hper e he
  rw [recomputeSpent_bids] at hper
  dsimp only at hper
  revert hper
  split
  · intro hper
    exact h p per hper e he
  · rename_i per0 hper0
    intro hper
    by_cases hp : p = q
    · subst hp
      rw [alGet_alSet_self] at hper
      cases Option.some_inj.mp hper
      exact h p per0 hper0 e (List.mem_of_mem_filter he)
    · rw [alGet_alSet_ne _ _ _ _ hp] at hper
      exact h p per hper e he

theorem pac_some (ids : List String) (now : ℕ) (r : Room) (q q2 : String) :
    (alGet (pruneAndClamp ids now r q).bids q2).isSome =
      (alGet r.bids q2).isSome := by
  unfold pruneAndClamp
  rw [clampBidsToBudget_bids_isSome, recomputeSpent_bids]
  dsimp only
  split
  · rfl
  · rename_i per0 hper0
    by_cases hp : q2 = q
    · subst hp
      rw [alGet_alSet_self, hper0]
      rfl
    · rw [alGet_alSet_ne _ _ _ _ hp]

theorem pac_playersKeys (ids : List String) (now : ℕ) (r : Room)
    (q : String) :
    (pruneAndClamp ids now r q).players.map Prod.fst =
      r.players.map Prod.fst := by
  unfold pruneAndClamp
  rw [clampBidsToBudget_playersKeys, recomputeSpent_playersKeys]

theorem inv_applyJoin (room : Room) (pid : String) (name : Option String)
    (h : Inv room) : Inv (applyJoin room pid name).room := by
  obtain ⟨hb1, hb2, hnn, hsub, htot⟩ := h
  unfold applyJoin
  split
  · exact ⟨hb1, hb2, hnn, hsub, htot⟩
  · rename_i hguard
    dsimp only
    split
    · rename_i hbids
      refine ⟨?_, ?_, ?_, ?_, ?_⟩
      · rw [recomputeSpent_config]
        exact hb1
      · rw [recomputeSpent_config]
        exact hb2
      · intro p per hper
        rw [recomputeSpent_bids] at hper
        exact hnn p per hper
      · intro q hq
        rw [recomputeSpent_bids] at hq
        rw [alGet_isSome_iff, recomputeSpent_playersKeys]
        rw [← alGet_isSome_iff, alGet_alSet_isSome]
        exact Or.inr (hsub q hq)
      · intro q hq
        have hq2 : q = pid ∨ (alGet room.players q).isSome = true := by
          rw [alGet_isSome_iff, recomputeSpent_playersKeys,
            ← alGet_isSome_iff, alGet_alSet_isSome] at hq
          exact hq
        have htotEq : totalOf (recomputeSpent
            { room with
              hostId := match room.hostId with
                | none => some pid
                | some h => some h
              players := alSet room.players pid ⟨pid, normName name, 0⟩ }
            pid) q = totalOf room q := by
          unfold totalOf
          rw [recomputeSpent_bids]
        rw [htotEq, recomputeSpent_config]
        rcases hq2 with rfl | hq2
        · exact htot q (hsub q hbids)
        · exact htot q hq2
    · rename_i hbids
      have hnone : alGet room.bids pid = none :=
        Option.not_isSome_iff_eq_none.mp hbids
      refine ⟨?_, ?_, ?_, ?_, ?_⟩
      · rw [recomputeSpent_config]
        exact hb1
      · rw [recomputeSpent_config]
        exact hb2
      · intro p per hper
        rw [recomputeSpent_bids] at hper
        dsimp only at hper
        by_cases hp : p = pid
        · subst hp
          rw [alGet_alSet_self] at hper
          cases Option.some_inj.mp hper
          intro e he
          simp at he
        · rw [alGet_alSet_ne _ _ _ _ hp] at hper
          exact hnn p per hper
      · intro q hq
        rw [recomputeSpent_bids] at hq
        dsimp only at hq
        rw [alGet_isSome_iff, recomputeSpent_playersKeys,
          ← alGet_isSome_iff, alGet_alSet_isSome]
        rw [alGet_alSet_isSome] at hq
        rcases hq with rfl | hq
        · exact Or.inl rfl
        · exact Or.inr (hsub q hq)
      · intro q hq
        have hq2 : q = pid ∨ (alGet room.players q).isSome = true := by
          rw [alGet_isSome_iff, recomputeSpent_playersKeys,
            ← alGet_isSome_iff, alGet_alSet_isSome] at hq
          exact hq
        rw [recomputeSpent_config]
        by_cases hp : q = pid
        · subst hp
          unfold totalOf
          rw [recomputeSpent_bids]
          dsimp only
          rw [alGet_alSet_self]
          unfold rawTotal
          simp only [List.map_nil, List.sum_nil]
          omega
        · have htotEq : totalOf (recomputeSpent
              { { room with
                  hostId := match room.hostId with
                    | none => some pid
                    | some h => some h
                  players :=
                    alSet room.players pid ⟨pid, normName name, 0⟩ } with
                bids := alSet room.bids pid [] }
              pid) q = totalOf room q := by
            unfold totalOf
            rw [recomputeSpent_bids]
            dsimp only
            rw [alGet_alSet_ne _ _ _ _ hp]
          rw [htotEq]
          rcases hq2 with rfl | hq2
          · exact absurd rfl hp
          · exact htot q hq2

theorem normBudget_lower (q : Option ℚ) (cur : ℤ) : 1 ≤ normBudget q cur :=
  le_max_left 1 _

theorem normBudget_upper (q : Option ℚ) (cur : ℤ) :
    normBudget q cur ≤ 10000 :=
  max_le (by norm_num) (min_le_left _ _)

/-- Deleting a participant (with any host reassignment) preserves the
invariant. -/
theorem inv_delete (room : Room) (pid : String) (host2 : Option String)
    (h : Inv room) :
    Inv { room with players := alDelete room.players pid, bids := alDelete room.bids pid, hostId := host2 } := by
  obtain ⟨hb1, hb2, hnn, hsub, htot⟩ := h
  refine ⟨hb1, hb2, ?_, ?_, ?_⟩
  · intro q per hper e he
    dsimp only at hper
    by_cases hq : q = pid
    · subst hq
      rw [alGet_alDelete_self] at hper
      cases hper
    · rw [alGet_alDelete_ne _ _ _ hq] at hper
      exact hnn q per hper e he
  · intro q hq
    dsimp only at hq ⊢
    by_cases hqp : q = pid
    · subst hqp
      rw [alGet_alDelete_self] at hq
      simp at hq
    · rw [alGet_alDelete_ne _ _ _ hqp] at hq
      rw [alGet_alDelete_ne _ _ _ hqp]
      exact hsub q hq
  · intro q hq
    dsimp only at hq ⊢
    by_cases hqp : q = pid
    · subst hqp
      rw [alGet_alDelete_self] at hq
      simp at hq
    · unfold totalOf
      dsimp only
      rw [alGet_alDelete_ne _ _ _ hqp]
      rw [alGet_alDelete_ne _ _ _ hqp] at hq
      exact htot q hq

/-- Every event preserves the room invariant. -/
theorem inv_step (room : Room) (pid : String) (now : ℕ) (genId : ℕ → String)
    (m : Msg) (h : Inv room) : Inv (step room pid now genId m).room := by
  obtain ⟨hb1, hb2, hnn, hsub, htot⟩ := h
  cases m with
  | join roomId name =>
    simp only [step]
    split
    · exact ⟨hb1, hb2, hnn, hsub, htot⟩
    · split
      · exact ⟨hb1, hb2, hnn, hsub, htot⟩
      · exact inv_applyJoin room pid name ⟨hb1, hb2, hnn, hsub, htot⟩
  | set_config budget revealBids allowJoinAfterLock =>
    simp only [step]
    split
    · exact ⟨hb1, hb2, hnn, hsub, htot⟩
    · split
      · exact ⟨hb1, hb2, hnn, hsub, htot⟩
      · have hcfg := foldStep_config (fun r q => clampBidsToBudget now r q)
          (fun r q => clampBidsToBudget_config now r q)
        have hsome2 := foldStep_some (fun r q => clampBidsToBudget now r q)
          (fun r q q2 => clampBidsToBudget_bids_isSome now r q q2)
        have hpk2 := foldStep_playersKeys
          (fun r q => clampBidsToBudget now r q)
          (fun r q => clampBidsToBudget_playersKeys now r q)
        refine ⟨?_, ?_, ?_, ?_, ?_⟩
        · rw [hcfg]
          exact normBudget_lower _ _
        · rw [hcfg]
          exact normBudget_upper _ _
        · exact foldStep_nonneg (fun r q => clampBidsToBudget now r q)
            (fun r q => clampBidsToBudget_nonneg now r q) _ _ hnn
        · intro q hq
          rw [hsome2] at hq
          rw [alGet_isSome_iff, hpk2, ← alGet_isSome_iff]
          exact hsub q hq
        · intro q hq
          rw [alGet_isSome_iff, hpk2] at hq
          have hmem : q ∈ List.map Prod.fst room.players := hq
          rw [hcfg]
          refine foldStep_total_mem (fun r q => clampBidsToBudget now r q)
            (fun r q => clampBidsToBudget_config now r q)
            (fun r q q2 hne => clampBidsToBudget_bids_other now r q q2 hne)
            (fun r q hb => clampBidsToBudget_totalOf_self now r q hb)
            _ _ q ?_ hmem
          show (0 : ℤ) ≤ normBudget budget room.config.budget
          have := normBudget_lower budget room.config.budget
          omega
  | set_topics topics =>
    simp only [step]
    split
    · exact ⟨hb1, hb2, hnn, hsub, htot⟩
    · split
      · exact ⟨hb1, hb2, hnn, hsub, htot⟩
      · have hcfg := foldStep_config
          (pruneAndClamp (topicIds (((topics.getD []).take 50).enum.map
            (buildTopic genId))) now)
          (fun r q => pac_config _ now r q)
        have hsome2 := foldStep_some
          (pruneAndClamp (topicIds (((topics.getD []).take 50).enum.map
            (buildTopic genId))) now)
          (fun r q q2 => pac_some _ now r q q2)
        have hpk2 := foldStep_playersKeys
          (pruneAndClamp (topicIds (((topics.getD []).take 50).enum.map
            (buildTopic genId))) now)
          (fun r q => pac_playersKeys _ now r q)
        refine ⟨?_, ?_, ?_, ?_, ?_⟩
        · rw [hcfg]
          exact hb1
        · rw [hcfg]
          exact hb2
        · exact foldStep_nonneg _ (fun r q => pac_nonneg _ now r q) _ _ hnn
        · intro q hq
          rw [hsome2] at hq
          rw [alGet_isSome_iff, hpk2, ← alGet_isSome_iff]
          exact hsub q hq
        · intro q hq
          rw [hcfg]
          by_cases hmem : q ∈ List.map Prod.fst room.bids
          · refine foldStep_total_mem
              (pruneAndClamp (topicIds (((topics.getD []).take 50).enum.map
                (buildTopic genId))) now)
              (fun r q => pac_config _ now r q)
              (fun r q q2 hne => pac_bids_other _ now r q q2 hne)
              (fun r q hb => pac_total_self _ now r q hb)
              _ _ q ?_ hmem
            show (0 : ℤ) ≤ room.config.budget
            omega
          · rw [foldStep_total_notin
              (pruneAndClamp (topicIds (((topics.getD []).take 50).enum.map
                (buildTopic genId))) now)
              (fun r q q2 hne => pac_bids_other _ now r q q2 hne)
              (List.map Prod.fst room.bids) _ q hmem]
            unfold totalOf
            dsimp only
            rw [(alGet_eq_none_iff room.bids q).mpr hmem]
            show (0 : ℤ) ≤ room.config.budget
            omega
  | lock_bids =>
    simp only [step]
    split
    · exact ⟨hb1, hb2, hnn, hsub, htot⟩
    · split
      · exact ⟨hb1, hb2, hnn, hsub, htot⟩
      · exact ⟨hb1, hb2, hnn, hsub, htot⟩
  | unlock_bids =>
    simp only [step]
    split
    · exact ⟨hb1, hb2, hnn, hsub, htot⟩
    · split
      · exact ⟨hb1, hb2, hnn, hsub, htot⟩
      · exact ⟨hb1, hb2, hnn, hsub, htot⟩
  | bid topicId amount =>
    simp only [step]
    split
    · exact ⟨hb1, hb2, hnn, hsub, htot⟩
    · split
      · exact ⟨hb1, hb2, hnn, hsub, htot⟩
      · split
        · exact ⟨hb1, hb2, hnn, hsub, htot⟩
        · rename_i hjoined _ _
          have hnn1 : BidsNonneg { room with bids := alSet room.bids pid (alSet ((alGet room.bids pid).getD []) (topicId.getD "") ⟨floorAmount amount, now⟩) } := by
            intro p per hper e he
            dsimp only at hper
            by_cases hp : p = pid
            · subst hp
              rw [alGet_alSet_self] at hper
              cases Option.some_inj.mp hper
              rcases mem_alSet he with rfl | he2
              · exact le_max_left _ _
              · rcases hg : alGet room.bids p with _ | per0
                · rw [hg] at he2
                  simp at he2
                · rw [hg] at he2
                  exact hnn p per0 hg e he2
            · rw [alGet_alSet_ne _ _ _ _ hp] at hper
              exact hnn p per hper e he
          refine ⟨?_, ?_, ?_, ?_, ?_⟩
          · rw [clampBidsToBudget_config]
            exact hb1
          · rw [clampBidsToBudget_config]
            exact hb2
          · exact clampBidsToBudget_nonneg _ _ _ hnn1
          · intro q hq
            rw [clampBidsToBudget_bids_isSome] at hq
            rw [alGet_isSome_iff, clampBidsToBudget_playersKeys,
              ← alGet_isSome_iff]
            dsimp only at hq ⊢
            by_cases hp : q = pid
            · subst hp
              rcases hpp : alGet room.players q with _ | v
              · rw [hpp] at hjoined
                simp at hjoined
              · simp
            · rw [alGet_alSet_isSome] at hq
              rcases hq with rfl | hq
              · exact absurd rfl hp
              · exact hsub q hq
          · intro q hq
            rw [clampBidsToBudget_config]
            by_cases hp : q = pid
            · subst hp
              exact clampBidsToBudget_totalOf_self now _ q
                (by dsimp only; omega)
            · rw [clampBidsToBudget_totalOf_other now _ pid q hp]
              have heq : totalOf { room with bids := alSet room.bids pid (alSet ((alGet room.bids pid).getD []) (topicId.getD "") ⟨floorAmount amount, now⟩) } q = totalOf room q := by
                unfold totalOf
                dsimp only
                rw [alGet_alSet_ne _ _ _ _ hp]
              rw [heq]
              rw [alGet_isSome_iff, clampBidsToBudget_playersKeys,
                ← alGet_isSome_iff] at hq
              exact htot q hq
  | compute_winners =>
    simp only [step]
    split
    · exact ⟨hb1, hb2, hnn, hsub, htot⟩
    · split
      · exact ⟨hb1, hb2, hnn, hsub, htot⟩
      · exact ⟨hb1, hb2, hnn, hsub, htot⟩
  | disconnect =>
    simp only [step]
    split
    · exact ⟨hb1, hb2, hnn, hsub, htot⟩
    · rename_i p hp
      split
      · exact inv_delete room pid _ ⟨hb1, hb2, hnn, hsub, htot⟩
      · exact inv_delete room pid _ ⟨hb1, hb2, hnn, hsub, htot⟩

/-- One inbound event as delivered by the transport: issuer, clock value,
`nanoid` supply, payload. -/
structure Inbound where
  pid : String
  now : ℕ
  genId : ℕ → String
  msg : Msg

/-- Applies a list of events to a room in order. -/
def applyEvents (room : Room) : List Inbound → Room
  | [] => room
  | e :: rest => applyEvents (step room e.pid e.now e.genId e.msg).room rest

theorem inv_applyEvents (room : Room) (evs : List Inbound) (h : Inv room) :
    Inv (applyEvents room evs) := by
  induction evs generalizing room with
  | nil => exact h
  | cons e rest ih => exact ih _ (inv_step _ _ _ _ _ h)

/-- The per-participant effect of the clamp on one stored bid entry: it stays
present, its amount never increases and never turns negative, its timestamp
is either untouched (within-budget path) or rewritten to the clamp time, and
within budget nothing changes at all. -/
theorem clamp_entry_after (now : ℕ) (room : Room) (pid tid : String)
    (per : PerTopic) (hbid : alGet room.bids pid = some per)
    (hnd : (per.map Prod.fst).Nodup)
    (b0 : Bid) (h0 : alGet per tid = some b0) (hb0 : 0 ≤ b0.amount) :
    ∃ per2 b, alGet (clampBidsToBudget now room pid).bids pid = some per2 ∧
      alGet per2 tid = some b ∧ 0 ≤ b.amount ∧ b.amount ≤ b0.amount ∧
      (b.ts = b0.ts ∨ b.ts = now) ∧
      (entSum (per.map (fun e => (⟨e.1, max 0 e.2.amount, e.2.ts⟩ : CEntry))) ≤
        room.config.budget → b = b0) := by
  by_cases htot : entSum (per.map (fun e =>
      (⟨e.1, max 0 e.2.amount, e.2.ts⟩ : CEntry))) ≤ room.config.budget
  · have hbids := clamp_bids_within now room pid (by
      intro per2 hper2
      rw [hbid] at hper2
      cases Option.some_inj.mp hper2
      exact htot)
    refine ⟨per, b0, ?_, h0, hb0, le_refl _, Or.inl rfl, fun _ => rfl⟩
    rw [hbids, hbid]
  · obtain ⟨nm, h1, hrel, hsum, hkeys⟩ :=
      clamp_over_result now room pid per hbid htot
    have hget : alGet (clampBidsToBudget now room pid).bids pid = some nm := by
      rw [h1, recomputeSpent_bids]
      dsimp only
      exact alGet_alSet_self _ _ _
    have hmem0 : (⟨tid, max 0 b0.amount, b0.ts⟩ : CEntry) ∈
        stableSort clampLE (per.map (fun e =>
          (⟨e.1, max 0 e.2.amount, e.2.ts⟩ : CEntry))) := by
      rw [mem_stableSort]
      exact List.mem_map.mpr ⟨(tid, b0), alGet_mem h0, rfl⟩
    obtain ⟨p2, hp2mem, hp2rel⟩ := forall2_exists_mem hrel hmem0
    have hnd2 : (nm.map Prod.fst).Nodup := by
      rw [hkeys]
      have hperm := (stableSort_perm clampLE (per.map (fun e =>
        (⟨e.1, max 0 e.2.amount, e.2.ts⟩ : CEntry)))).map CEntry.topicId
      rw [hperm.nodup_iff]
      have hmm : (per.map (fun e =>
          (⟨e.1, max 0 e.2.amount, e.2.ts⟩ : CEntry))).map CEntry.topicId =
          per.map Prod.fst := by
        rw [List.map_map]
        apply List.map_congr_left
        intro e _
        rfl
      rw [hmm]
      exact hnd
    have hpmem2 : (tid, p2.2) ∈ nm := by
      have hpeq : p2 = (tid, p2.2) := by
        obtain ⟨a, b⟩ := p2
        simp only at hp2rel ⊢
        rw [hp2rel.1]
      rw [← hpeq]
      exact hp2mem
    refine ⟨nm, p2.2, hget, mem_alGet_of_nodup hnd2 hpmem2, hp2rel.2.2.1,
      ?_, Or.inr hp2rel.2.2.2, fun hc => absurd hc htot⟩
    have := hp2rel.2.1
    simp only at this
    rw [max_eq_right hb0] at this
    exact this

/-! ## Allocation invariants

The resolution loop's correctness rests on five state invariants: winners
only from the topic's bid list (`WinnersInList`), empty winner sets away
from the topic ids (`WinnersZero`), pointers within bounds (`IdxLe`),
no player in two different winner sets (`AtMostOne`), and every topic either
full or with an exhausted candidate list (`Saturated`). -/

/-- Every winner appears in the topic's bid list. -/
def WinnersInList (bl : String → List Cand) (st : AllocSt) : Prop :=
  ∀ id p, p ∈ st.winners id → p ∈ (bl id).map Cand.playerId

/-- Winner sets of ids outside the topic list are empty. -/
def WinnersZero (topics : List Topic) (st : AllocSt) : Prop :=
  ∀ id, id ∉ topicIds topics → st.winners id = []

/-- Every pointer is at most the list length. -/
def IdxLe (bl : String → List Cand) (st : AllocSt) : Prop :=
  ∀ id, st.nextIdx id ≤ (bl id).length

/-- No player sits in the winner sets of two different topic ids. -/
def AtMostOne (topics : List Topic) (st : AllocSt) : Prop :=
  ∀ p id1 id2, id1 ∈ topicIds topics → id2 ∈ topicIds topics →
    p ∈ st.winners id1 → p ∈ st.winners id2 → id1 = id2

/-- Every topic is either at capacity or has consumed its whole list. -/
def Saturated (topics : List Topic) (bl : String → List Cand)
    (st : AllocSt) : Prop :=
  ∀ t ∈ topics, t.capacity ≤ (st.winners t.id).length ∨
    st.nextIdx t.id = (bl t.id).length

/-- Every topic's winner set is within its capacity. -/
def CapBound (topics : List Topic) (st : AllocSt) : Prop :=
  ∀ t ∈ topics, (st.winners t.id).length ≤ t.capacity

theorem mem_setAdd (l : List String) (x y : String) :
    y ∈ setAdd l x ↔ y ∈ l ∨ y = x := by
  unfold setAdd
  split
  · rename_i h
    constructor
    · exact Or.inl
    · intro hy
      rcases hy with hy | rfl
      · exact hy
      · exact h
  · simp

theorem length_setAdd_le (l : List String) (x : String) :
    (setAdd l x).length ≤ l.length + 1 := by
  unfold setAdd
  split
  · omega
  · simp

theorem mem_foldl_setAdd (l : List String) (acc : List String) (x : String) :
    x ∈ l.foldl setAdd acc ↔ x ∈ acc ∨ x ∈ l := by
  induction l generalizing acc with
  | nil => simp
  | cons a l ih =>
    rw [List.foldl_cons, ih, mem_setAdd]
    constructor
    · rintro ((h | rfl) | h)
      · exact Or.inl h
      · exact Or.inr (List.mem_cons_self _ _)
      · exact Or.inr (List.mem_cons_of_mem _ h)
    · rintro (h | h)
      · exact Or.inl (Or.inl h)
      · rcases List.mem_cons.mp h with rfl | h2
        · exact Or.inl (Or.inr rfl)
        · exact Or.inr h2

theorem length_foldl_setAdd_le (l : List String) (acc : List String) :
    (l.foldl setAdd acc).length ≤ acc.length + l.length := by
  induction l generalizing acc with
  | nil => simp
  | cons a l ih =>
    rw [List.foldl_cons]
    have h1 := ih (setAdd acc a)
    have h2 := length_setAdd_le acc a
    simp only [List.length_cons]
    omega

theorem step1Topic_winners_other (bl : String → List Cand) (st : AllocSt)
    (t : Topic) (id : String) (h : id ≠ t.id) :
    (step1Topic bl st t).winners id = st.winners id := by
  unfold step1Topic
  dsimp only
  rw [if_neg h]

theorem step1Topic_nextIdx_other (bl : String → List Cand) (st : AllocSt)
    (t : Topic) (id : String) (h : id ≠ t.id) :
    (step1Topic bl st t).nextIdx id = st.nextIdx id := by
  unfold step1Topic
  dsimp only
  rw [if_neg h]

theorem step1_winnersInList (topics : List Topic)
    (bl : String → List Cand) : WinnersInList bl (step1 topics bl) := by
  unfold step1
  have key : ∀ (L : List Topic) (st : AllocSt), WinnersInList bl st →
      WinnersInList bl (L.foldl (step1Topic bl) st) := by
    intro L
    induction L with
    | nil => intro st h; exact h
    | cons t L ih =>
      intro st h
      rw [List.foldl_cons]
      apply ih
      intro id p hp
      by_cases hid : id = t.id
      · subst hid
        unfold step1Topic at hp
        dsimp only at hp
        rw [if_pos rfl] at hp
        rcases (mem_foldl_setAdd _ _ _).mp hp with h2 | h2
        · exact h t.id p h2
        · rcases List.mem_map.mp h2 with ⟨c, hc, rfl⟩
          exact List.mem_map.mpr ⟨c, List.mem_of_mem_take hc, rfl⟩
      · rw [step1Topic_winners_other bl st t id hid] at hp
        exact h id p hp
  apply key
  intro id p hp
  simp [initSt] at hp

theorem step1_winnersZero (topics : List Topic) (bl : String → List Cand) :
    WinnersZero topics (step1 topics bl) := by
  unfold step1
  have key : ∀ (L : List Topic) (st : AllocSt), (∀ t ∈ L, t ∈ topics) →
      (∀ id, id ∉ topicIds topics → st.winners id = []) →
      ∀ id, id ∉ topicIds topics →
        (L.foldl (step1Topic bl) st).winners id = [] := by
    intro L
    induction L with
    | nil => intro st _ h id hid; exact h id hid
    | cons t L ih =>
      intro st hsub h id hid
      rw [List.foldl_cons]
      apply ih _ (fun x hx => hsub x (List.mem_cons_of_mem _ hx))
      · intro id2 hid2
        have hne : id2 ≠ t.id := by
          intro hc
          exact hid2 (hc ▸ List.mem_map.mpr
            ⟨t, hsub t (List.mem_cons_self _ _), rfl⟩)
        rw [step1Topic_winners_other bl st t id2 hne]
        exact h id2 hid2
      · exact hid
  intro id hid
  exact key topics initSt (fun x hx => hx) (fun _ _ => rfl) id hid

theorem step1_idxLe (topics : List Topic) (bl : String → List Cand) :
    IdxLe bl (step1 topics bl) := by
  unfold step1
  have key : ∀ (L : List Topic) (st : AllocSt), IdxLe bl st →
      IdxLe bl (L.foldl (step1Topic bl) st) := by
    intro L
    induction L with
    | nil => intro st h; exact h
    | cons t L ih =>
      intro st h
      rw [List.foldl_cons]
      apply ih
      intro id
      by_cases hid : id = t.id
      · subst hid
        unfold step1Topic
        dsimp only
        rw [if_pos rfl]
        exact min_le_right _ _
      · rw [step1Topic_nextIdx_other bl st t id hid]
        exact h id
  apply key
  intro id
  exact Nat.zero_le _

theorem foldl_step1Topic_winners_notin (bl : String → List Cand) :
    ∀ (L : List Topic) (st : AllocSt) (id : String),
    id ∉ L.map Topic.id →
    (L.foldl (step1Topic bl) st).winners id = st.winners id := by
  intro L
  induction L with
  | nil => intro st id _; rfl
  | cons t1 L1 ih1 =>
    intro st id hid
    simp only [List.map_cons, List.mem_cons, not_or] at hid
    rw [List.foldl_cons, ih1 _ _ hid.2]
    exact step1Topic_winners_other bl st t1 id hid.1

theorem step1_capBound (topics : List Topic) (bl : String → List Cand)
    (hnd : (topics.map Topic.id).Nodup) : CapBound topics (step1 topics bl) := by
  unfold step1
  have key : ∀ (L : List Topic) (st : AllocSt),
      (L.map Topic.id).Nodup →
      (∀ t ∈ L, st.winners t.id = []) →
      ∀ t ∈ L, ((L.foldl (step1Topic bl) st).winners t.id).length ≤
        t.capacity := by
    intro L
    induction L with
    | nil => intro st _ _ t ht; simp at ht
    | cons t0 L ih =>
      intro st hnd2 hempty t ht
      simp only [List.map_cons, List.nodup_cons] at hnd2
      rw [List.foldl_cons]
      rcases List.mem_cons.mp ht with rfl | htL
      · rw [foldl_step1Topic_winners_notin bl L _ _ hnd2.1]
        unfold step1Topic
        dsimp only
        rw [if_pos rfl]
        rw [hempty t (List.mem_cons_self _ _)]
        have h1 := length_foldl_setAdd_le
          (((bl t.id).take (min t.capacity (bl t.id).length)).map
            Cand.playerId) []
        have h2 : ((((bl t.id).take (min t.capacity (bl t.id).length)).map
            Cand.playerId)).length ≤ t.capacity := by
          rw [List.length_map, List.length_take]
          omega
        simp only [List.length_nil] at h1
        omega
      · apply ih _ hnd2.2 _ t htL
        intro t2 ht2
        have hne : t2.id ≠ t0.id := by
          intro hc
          exact hnd2.1 (hc ▸ List.mem_map.mpr ⟨t2, ht2, rfl⟩)
        rw [step1Topic_winners_other bl st t0 t2.id hne]
        exact hempty t2 (List.mem_cons_of_mem _ ht2)
  intro t ht
  exact key topics initSt hnd (fun _ _ => rfl) t ht

theorem two_filterMap {α β : Type} (f : α → Option β) (l : List α)
    (a b : α) (ha : a ∈ l) (hb : b ∈ l) (hne : a ≠ b)
    (hfa : (f a).isSome = true) (hfb : (f b).isSome = true) :
    2 ≤ (l.filterMap f).length := by
  induction l with
  | nil => simp at ha
  | cons x rest ih =>
    by_cases hax : a = x
    · subst hax
      rcases Option.isSome_iff_exists.mp hfa with ⟨va, hva⟩
      rcases Option.isSome_iff_exists.mp hfb with ⟨vb, hvb⟩
      have hbr : b ∈ rest := by
        rcases List.mem_cons.mp hb with h1 | h1
        · exact absurd h1.symm hne
        · exact h1
      have h1 : vb ∈ rest.filterMap f := List.mem_filterMap.mpr ⟨b, hbr, hvb⟩
      have h2 : 0 < (rest.filterMap f).length := List.length_pos_of_mem h1
      rw [List.filterMap_cons, hva]
      simp only [List.length_cons]
      omega
    · by_cases hbx : b = x
      · subst hbx
        rcases Option.isSome_iff_exists.mp hfb with ⟨vb, hvb⟩
        rcases Option.isSome_iff_exists.mp hfa with ⟨va, hva⟩
        have har : a ∈ rest := by
          rcases List.mem_cons.mp ha with h1 | h1
          · exact absurd h1 hax
          · exact h1
        have h1 : va ∈ rest.filterMap f := List.mem_filterMap.mpr ⟨a, har, hva⟩
        have h2 : 0 < (rest.filterMap f).length := List.length_pos_of_mem h1
        rw [List.filterMap_cons, hvb]
        simp only [List.length_cons]
        omega
      · have har : a ∈ rest := by
          rcases List.mem_cons.mp ha with h1 | h1
          · exact absurd h1 hax
          · exact h1
        have hbr : b ∈ rest := by
          rcases List.mem_cons.mp hb with h1 | h1
          · exact absurd h1 hbx
          · exact h1
        have h2 := ih har hbr
        rw [List.filterMap_cons]
        rcases f x with _ | v
        · exact h2
        · simp only [List.length_cons]
          omega

/-- Every row of `playerWinsOf` carries a topic id whose winner set holds
the player. -/
theorem playerWinsOf_topicId (topics : List Topic) (bl : String → List Cand)
    (st : AllocSt) (p : String) (w : WinEntry)
    (hw : w ∈ playerWinsOf topics bl st p) :
    ∃ t ∈ topics, w.topicId = t.id ∧ p ∈ st.winners t.id := by
  rcases List.mem_filterMap.mp hw with ⟨t, ht, hgt⟩
  by_cases hmem : p ∈ st.winners t.id
  · rw [if_pos hmem] at hgt
    rcases hfind : (bl t.id).find? (fun c => decide (c.playerId = p))
      with _ | c
    · rw [hfind] at hgt
      cases hgt
    · rw [hfind] at hgt
      cases Option.some_inj.mp hgt
      exact ⟨t, ht, rfl, hmem⟩
  · rw [if_neg hmem] at hgt
    cases hgt

/-- Under `WinnersInList`, a player winning the sets of two different ids has
at least two rows in `playerWinsOf`. -/
theorem playerWinsOf_two (topics : List Topic) (bl : String → List Cand)
    (st : AllocSt) (p : String) (hW : WinnersInList bl st)
    {id1 id2 : String} (h1 : id1 ∈ topicIds topics)
    (h2 : id2 ∈ topicIds topics) (hne : id1 ≠ id2)
    (hp1 : p ∈ st.winners id1) (hp2 : p ∈ st.winners id2) :
    2 ≤ (playerWinsOf topics bl st p).length := by
  rcases List.mem_map.mp h1 with ⟨t1, ht1, rfl⟩
  rcases List.mem_map.mp h2 with ⟨t2, ht2, rfl⟩
  have htne : t1 ≠ t2 := by
    intro hc
    exact hne (hc ▸ rfl)
  have hsome : ∀ t : Topic, p ∈ st.winners t.id →
      ((fun t => if p ∈ st.winners t.id then
        match (bl t.id).find? (fun c => decide (c.playerId = p)) with
        | none => none
        | some c => some (⟨t.id, c.amount, c.ts⟩ : WinEntry)
      else none) t).isSome = true := by
    intro t hp
    have hfind : ((bl t.id).find?
        (fun c => decide (c.playerId = p))).isSome = true := by
      rw [List.find?_isSome]
      rcases List.mem_map.mp (hW t.id p hp) with ⟨c, hc, hcp⟩
      exact ⟨c, hc, by simp [hcp]⟩
    rcases Option.isSome_iff_exists.mp hfind with ⟨c, hc⟩
    simp only [if_pos hp, hc, Option.isSome_some]
  exact two_filterMap _ topics t1 t2 ht1 ht2 htne
    (hsome t1 hp1) (hsome t2 hp2)

/-- When a player has at most one winner-set membership, `keepOf` is `none`
or names that very id. -/
theorem keepOf_eq (topics : List Topic) (bl : String → List Cand)
    (st : AllocSt) (p : String) (id : String)
    (hI1 : AtMostOne topics st) (hid : id ∈ topicIds topics)
    (hp : p ∈ st.winners id) :
    keepOf topics bl st p = none ∨ keepOf topics bl st p = some id := by
  unfold keepOf
  dsimp only
  split
  · exact Or.inl rfl
  · right
    rename_i hlen
    have hall : ∀ w ∈ playerWinsOf topics bl st p, w.topicId = id := by
      intro w hw
      rcases playerWinsOf_topicId topics bl st p w hw with ⟨t, ht, hwid, hpt⟩
      rw [hwid]
      exact hI1 p t.id id (List.mem_map.mpr ⟨t, ht, rfl⟩) hid hpt hp
    have hne : playerWinsOf topics bl st p ≠ [] := by
      intro hc
      rw [hc] at hlen
      simp at hlen
    have hsne : stableSort keepLE (playerWinsOf topics bl st p) ≠ [] := by
      intro hc
      have hl := (stableSort_perm keepLE (playerWinsOf topics bl st p)).length_eq
      rw [hc] at hl
      simp only [List.length_nil] at hl
      exact hne (List.length_eq_zero.mp hl.symm)
    rcases hh : (stableSort keepLE (playerWinsOf topics bl st p)).head?
      with _ | w0
    · rw [List.head?_eq_none_iff] at hh
      exact absurd hh hsne
    · have hmem : w0 ∈ stableSort keepLE (playerWinsOf topics bl st p) := by
        rcases hl : stableSort keepLE (playerWinsOf topics bl st p)
          with _ | ⟨x, xs⟩
        · exact absurd hl hsne
        · rw [hl] at hh
          simp only [List.head?_cons] at hh
          cases Option.some_inj.mp hh
          exact List.mem_cons_self _ _
      rw [mem_stableSort] at hmem
      show some w0.topicId = some id
      rw [hall w0 hmem]

theorem mem_removalApply (topics : List Topic) (bl : String → List Cand)
    (st : AllocSt) (id p : String) :
    p ∈ (removalApply topics bl st).winners id ↔
      p ∈ st.winners id ∧ (id ∈ topicIds topics →
        (keepOf topics bl st p = none ∨
          keepOf topics bl st p = some id)) := by
  unfold removalApply
  dsimp only
  by_cases hid : id ∈ topicIds topics
  · rw [if_pos hid, List.mem_filter]
    constructor
    · rintro ⟨hmem, hpred⟩
      refine ⟨hmem, fun _ => ?_⟩
      rcases hk : keepOf topics bl st p with _ | k
      · exact Or.inl rfl
      · right
        simp only [hk] at hpred
        rw [of_decide_eq_true hpred]
    · rintro ⟨hmem, himp⟩
      refine ⟨hmem, ?_⟩
      rcases himp hid with hk | hk <;> simp [hk]
  · rw [if_neg hid]
    constructor
    · intro h
      exact ⟨h, fun hc => absurd hc hid⟩
    · intro h
      exact h.1

theorem keepOf_ne_none_of_two (topics : List Topic) (bl : String → List Cand)
    (st : AllocSt) (p : String) (hW : WinnersInList bl st)
    {id1 id2 : String} (h1 : id1 ∈ topicIds topics)
    (h2 : id2 ∈ topicIds topics) (hne : id1 ≠ id2)
    (hp1 : p ∈ st.winners id1) (hp2 : p ∈ st.winners id2) :
    keepOf topics bl st p ≠ none := by
  intro hk
  have h2len := playerWinsOf_two topics bl st p hW h1 h2 hne hp1 hp2
  unfold keepOf at hk
  dsimp only at hk
  revert hk
  split
  · rename_i hle
    intro _
    omega
  · intro hk
    rw [Option.map_eq_none'] at hk
    rw [List.head?_eq_none_iff] at hk
    have hl := (stableSort_perm keepLE (playerWinsOf topics bl st p)).length_eq
    rw [hk] at hl
    simp only [List.length_nil] at hl
    omega

/-- The removal phase establishes the at-most-one-topic property. -/
theorem removal_atMostOne (topics : List Topic) (bl : String → List Cand)
    (st : AllocSt) (hW : WinnersInList bl st) :
    AtMostOne topics (removalApply topics bl st) := by
  intro p id1 id2 h1 h2 hp1 hp2
  rw [mem_removalApply] at hp1 hp2
  by_contra hne
  have hnn := keepOf_ne_none_of_two topics bl st p hW h1 h2 hne hp1.1 hp2.1
  rcases hp1.2 h1 with hk1 | hk1
  · exact hnn hk1
  · rcases hp2.2 h2 with hk2 | hk2
    · exact hnn hk2
    · rw [hk1] at hk2
      exact hne (Option.some_inj.mp hk2)

theorem removalApply_winnersInList (topics : List Topic)
    (bl : String → List Cand) (st : AllocSt) (hW : WinnersInList bl st) :
    WinnersInList bl (removalApply topics bl st) := by
  intro id p hp
  rw [mem_removalApply] at hp
  exact hW id p hp.1

theorem removalApply_winnersZero (topics : List Topic)
    (bl : String → List Cand) (st : AllocSt) (hZ : WinnersZero topics st) :
    WinnersZero topics (removalApply topics bl st) := by
  intro id hid
  unfold removalApply
  dsimp only
  rw [if_neg hid]
  exact hZ id hid

theorem removalApply_nextIdx (topics : List Topic)
    (bl : String → List Cand) (st : AllocSt) :
    (removalApply topics bl st).nextIdx = st.nextIdx := rfl

/-- Under the at-most-one property the removal phase is the identity. -/
theorem removalApply_eq (topics : List Topic) (bl : String → List Cand)
    (st : AllocSt) (hI1 : AtMostOne topics st) :
    removalApply topics bl st = st := by
  apply AllocSt.ext2
  · intro id
    unfold removalApply
    dsimp only
    by_cases hid : id ∈ topicIds topics
    · rw [if_pos hid]
      apply List.filter_eq_self.mpr
      intro p hp
      rcases keepOf_eq topics bl st p id hI1 hid hp with hk | hk <;>
        simp [hk]
    · rw [if_neg hid]
  · intro id
    rfl

/-- Under the at-most-one property the removal phase reports no change. -/
theorem removalChanged_false (topics : List Topic) (bl : String → List Cand)
    (st : AllocSt) (hI1 : AtMostOne topics st) :
    removalChanged topics bl st = false := by
  unfold removalChanged
  rw [List.any_eq_false]
  intro t ht
  rw [Bool.not_eq_true, List.any_eq_false]
  intro p hp
  rcases keepOf_eq topics bl st p t.id hI1
      (List.mem_map.mpr ⟨t, ht, rfl⟩) hp with hk | hk <;> simp [hk]

/-- Full specification of the refill while-loop: it appends a block `A` of
fresh players (not yet winning anywhere) to both the winner set and the
winning-players set, only advances the pointer within bounds, stops at
capacity or list end, and never overshoots the capacity. -/
theorem refillLoop_spec (list : List Cand) (cap : ℕ) :
    ∀ (fuel idx : ℕ) (w wp : List String) (ch : Bool),
    idx ≤ list.length → list.length ≤ fuel + idx →
    ∃ A : List String,
      (refillLoop list cap fuel idx w wp ch).2.1 = w ++ A ∧
      (refillLoop list cap fuel idx w wp ch).2.2.1 = wp ++ A ∧
      (∀ p ∈ A, p ∉ wp ∧ p ∈ list.map Cand.playerId) ∧
      idx ≤ (refillLoop list cap fuel idx w wp ch).1 ∧
      (refillLoop list cap fuel idx w wp ch).1 ≤ list.length ∧
      (cap ≤ (refillLoop list cap fuel idx w wp ch).2.1.length ∨
        (refillLoop list cap fuel idx w wp ch).1 = list.length) ∧
      (refillLoop list cap fuel idx w wp ch).2.1.length ≤
        max w.length cap := by
  intro fuel
  induction fuel with
  | zero =>
    intro idx w wp ch hle hfuel
    simp only [refillLoop]
    refine ⟨[], by simp, by simp, by simp, le_refl _, hle, ?_, ?_⟩
    · right
      omega
    · simp
  | succ fuel ih =>
    intro idx w wp ch hle hfuel
    simp only [refillLoop]
    by_cases h : w.length < cap ∧ idx < list.length
    · rw [dif_pos h]
      have hle2 : idx + 1 ≤ list.length := h.2
      have hfuel2 : list.length ≤ fuel + (idx + 1) := by omega
      by_cases hw : (list.get ⟨idx, h.2⟩).playerId ∈ w
      · rw [if_pos hw]
        obtain ⟨A, h1, h2, h3, h4, h5, h6, h7⟩ := ih (idx + 1) w wp ch
          hle2 hfuel2
        exact ⟨A, h1, h2, h3, by omega, h5, h6, h7⟩
      · rw [if_neg hw]
        by_cases hwp : (list.get ⟨idx, h.2⟩).playerId ∈ wp
        · rw [if_pos hwp]
          obtain ⟨A, h1, h2, h3, h4, h5, h6, h7⟩ := ih (idx + 1) w wp ch
            hle2 hfuel2
          exact ⟨A, h1, h2, h3, by omega, h5, h6, h7⟩
        · rw [if_neg hwp]
          obtain ⟨A, h1, h2, h3, h4, h5, h6, h7⟩ := ih (idx + 1)
            (w ++ [(list.get ⟨idx, h.2⟩).playerId])
            (wp ++ [(list.get ⟨idx, h.2⟩).playerId]) true hle2 hfuel2
          refine ⟨(list.get ⟨idx, h.2⟩).playerId :: A, ?_, ?_, ?_,
            by omega, h5, h6, ?_⟩
          · rw [h1, List.append_assoc]
            rfl
          · rw [h2, List.append_assoc]
            rfl
          · intro p hp
            rcases List.mem_cons.mp hp with rfl | hp2
            · exact ⟨hwp, List.mem_map.mpr ⟨_, list.get_mem _ _, rfl⟩⟩
            · have := h3 p hp2
              refine ⟨fun hc => this.1 (by
                rw [List.mem_append]
                exact Or.inl hc), this.2⟩
          · have hlen : (w ++ [(list.get ⟨idx, h.2⟩).playerId]).length =
                w.length + 1 := by simp
            rw [hlen] at h7
            omega
    · rw [dif_neg h]
      refine ⟨[], by simp, by simp, by simp, le_refl _, hle, ?_, ?_⟩
      · rw [Classical.not_and_iff_or_not_not] at h
        rcases h with h | h
        · left
          have := Nat.le_of_not_lt h
          simp
          exact this
        · right
          omega
      · simp

/-- Invariant carried through the refill fold: at-most-one membership,
winners from the lists, zero outside, pointers bounded, and the
winning-players accumulator contains every current winner. -/
def RefillInv (topics : List Topic) (bl : String → List Cand)
    (acc : AllocSt × List String × Bool) : Prop :=
  AtMostOne topics acc.1 ∧ WinnersInList bl acc.1 ∧
  WinnersZero topics acc.1 ∧ IdxLe bl acc.1 ∧
  (∀ id p, p ∈ acc.1.winners id → p ∈ acc.2.1)

/-- Winner-set lengths and pointers only grow along the refill fold. -/
def RMono (acc acc2 : AllocSt × List String × Bool) : Prop :=
  ∀ id, (acc.1.winners id).length ≤ (acc2.1.winners id).length ∧
    acc.1.nextIdx id ≤ acc2.1.nextIdx id

theorem refillTopic_step (topics : List Topic) (bl : String → List Cand)
    (acc : AllocSt × List String × Bool) (t : Topic) (ht : t ∈ topics)
    (hinv : RefillInv topics bl acc) :
    RefillInv topics bl (refillTopic bl acc t) ∧
    RMono acc (refillTopic bl acc t) ∧
    (t.capacity ≤ ((refillTopic bl acc t).1.winners t.id).length ∨
      (refillTopic bl acc t).1.nextIdx t.id = (bl t.id).length) := by
  obtain ⟨hI1, hW, hZ, hIdx, hwp⟩ := hinv
  unfold refillTopic
  dsimp only
  split
  · rename_i hcap
    exact ⟨⟨hI1, hW, hZ, hIdx, hwp⟩,
      fun id => ⟨le_refl _, le_refl _⟩, Or.inl hcap⟩
  · rename_i hcap
    obtain ⟨A, h1, h2, h3, h4, h5, h6, h7⟩ := refillLoop_spec (bl t.id)
      t.capacity ((bl t.id).length - acc.1.nextIdx t.id)
      (acc.1.nextIdx t.id) (acc.1.winners t.id) acc.2.1 acc.2.2
      (hIdx t.id) (by have := hIdx t.id; omega)
    refine ⟨⟨?_, ?_, ?_, ?_, ?_⟩, ?_, ?_⟩
    · intro p id1 id2 hid1 hid2 hp1 hp2
      dsimp only at hp1 hp2
      by_cases he1 : id1 = t.id <;> by_cases he2 : id2 = t.id
      · rw [he1, he2]
      · subst he1
        rw [if_pos rfl] at hp1
        rw [if_neg he2] at hp2
        rw [h1] at hp1
        rcases List.mem_append.mp hp1 with hp1w | hp1A
        · exact hI1 p t.id id2 hid1 hid2 hp1w hp2
        · exact absurd (hwp id2 p hp2) (h3 p hp1A).1
      · subst he2
        rw [if_pos rfl] at hp2
        rw [if_neg he1] at hp1
        rw [h1] at hp2
        rcases List.mem_append.mp hp2 with hp2w | hp2A
        · exact hI1 p id1 t.id hid1 hid2 hp1 hp2w
        · exact absurd (hwp id1 p hp1) (h3 p hp2A).1
      · rw [if_neg he1] at hp1
        rw [if_neg he2] at hp2
        exact hI1 p id1 id2 hid1 hid2 hp1 hp2
    · intro id p hp
      dsimp only at hp
      by_cases he : id = t.id
      · rw [if_pos he] at hp
        rw [h1] at hp
        rcases List.mem_append.mp hp with hpw | hpA
        · exact he ▸ hW t.id p hpw
        · exact he ▸ (h3 p hpA).2
      · rw [if_neg he] at hp
        exact hW id p hp
    · intro id hid
      dsimp only
      have hne : id ≠ t.id := by
        intro hc
        exact hid (hc ▸ List.mem_map.mpr ⟨t, ht, rfl⟩)
      rw [if_neg hne]
      exact hZ id hid
    · intro id
      dsimp only
      by_cases he : id = t.id
      · rw [if_pos he, he]
        exact h5
      · rw [if_neg he]
        exact hIdx id
    · intro id p hp
      dsimp only at hp ⊢
      rw [h2]
      by_cases he : id = t.id
      · rw [if_pos he] at hp
        rw [h1] at hp
        rcases List.mem_append.mp hp with hpw | hpA
        · exact List.mem_append_left _ (hwp t.id p hpw)
        · exact List.mem_append_right _ hpA
      · rw [if_neg he] at hp
        exact List.mem_append_left _ (hwp id p hp)
    · intro id
      dsimp only
      by_cases he : id = t.id
      · subst he
        constructor
        · rw [if_pos rfl, h1]
          simp
        · rw [if_pos rfl]
          exact h4
      · rw [if_neg he, if_neg he]
        exact ⟨le_refl _, le_refl _⟩
    · dsimp only
      rw [if_pos rfl, if_pos rfl]
      exact h6

theorem refill_fold (topics : List Topic) (bl : String → List Cand) :
    ∀ (L : List Topic) (acc : AllocSt × List String × Bool),
    (∀ t ∈ L, t ∈ topics) → RefillInv topics bl acc →
    RefillInv topics bl (L.foldl (refillTopic bl) acc) ∧
    RMono acc (L.foldl (refillTopic bl) acc) ∧
    (∀ t ∈ L,
      t.capacity ≤ ((L.foldl (refillTopic bl) acc).1.winners t.id).length ∨
      (L.foldl (refillTopic bl) acc).1.nextIdx t.id = (bl t.id).length) := by
  intro L
  induction L with
  | nil =>
    intro acc _ hinv
    exact ⟨hinv, fun id => ⟨le_refl _, le_refl _⟩, by simp⟩
  | cons t L ih =>
    intro acc hsub hinv
    rw [List.foldl_cons]
    obtain ⟨hinv2, hmono2, hpost2⟩ :=
      refillTopic_step topics bl acc t (hsub t (List.mem_cons_self _ _)) hinv
    obtain ⟨hinv3, hmono3, hpost3⟩ := ih (refillTopic bl acc t)
      (fun x hx => hsub x (List.mem_cons_of_mem _ hx)) hinv2
    refine ⟨hinv3, ?_, ?_⟩
    · intro id
      exact ⟨le_trans (hmono2 id).1 (hmono3 id).1,
        le_trans (hmono2 id).2 (hmono3 id).2⟩
    · intro t2 ht2
      rcases List.mem_cons.mp ht2 with rfl | ht2L
      · rcases hpost2 with hc | hc
        · left
          exact le_trans hc (hmono3 t2.id).1
        · right
          have hle := hinv3.2.2.2.1 t2.id
          have hge := (hmono3 t2.id).2
          rw [hc] at hge
          omega
      · exact hpost3 t2 ht2L

theorem refill_noop (bl : String → List Cand) :
    ∀ (L : List Topic) (st : AllocSt) (wp : List String) (ch : Bool),
    (∀ t ∈ L, t.capacity ≤ (st.winners t.id).length ∨
      st.nextIdx t.id = (bl t.id).length) →
    L.foldl (refillTopic bl) (st, wp, ch) = (st, wp, ch) := by
  intro L
  induction L with
  | nil => intro st wp ch _; rfl
  | cons t L ih =>
    intro st wp ch hsat
    rw [List.foldl_cons]
    have hstep : refillTopic bl (st, wp, ch) t = (st, wp, ch) := by
      unfold refillTopic
      dsimp only
      by_cases hcap : t.capacity ≤ (st.winners t.id).length
      · rw [if_pos hcap]
      · rw [if_neg hcap]
        have hc : st.nextIdx t.id = (bl t.id).length := by
          rcases hsat t (List.mem_cons_self _ _) with h | h
          · exact absurd h hcap
          · exact h
        rw [hc, Nat.sub_self]
        simp only [refillLoop]
        congr 1
        exact AllocSt.ext2
          (fun id => by by_cases he : id = t.id <;> simp [he])
          (fun id => by by_cases he : id = t.id <;> simp [he, hc])
    rw [hstep]
    exact ih st wp ch (fun t2 ht2 => hsat t2 (List.mem_cons_of_mem _ ht2))

theorem mem_foldl_winners (st : AllocSt) :
    ∀ (L : List Topic) (acc : List String) (p : String),
    p ∈ L.foldl (fun acc t => (st.winners t.id).foldl setAdd acc) acc ↔
      p ∈ acc ∨ ∃ t ∈ L, p ∈ st.winners t.id := by
  intro L
  induction L with
  | nil => simp
  | cons t L ih =>
    intro acc p
    rw [List.foldl_cons, ih, mem_foldl_setAdd]
    constructor
    · rintro ((h | h) | h)
      · exact Or.inl h
      · exact Or.inr ⟨t, List.mem_cons_self _ _, h⟩
      · rcases h with ⟨t2, ht2, hp⟩
        exact Or.inr ⟨t2, List.mem_cons_of_mem _ ht2, hp⟩
    · rintro (h | ⟨t2, ht2, hp⟩)
      · exact Or.inl (Or.inl h)
      · rcases List.mem_cons.mp ht2 with rfl | h2
        · exact Or.inl (Or.inr hp)
        · exact Or.inr ⟨t2, h2, hp⟩

/-- Every current winner appears in the `winningPlayers` set built by
`allWinners` (winner sets of ids outside the topic list being empty). -/
theorem allWinners_complete (topics : List Topic) (st : AllocSt)
    (hZ : WinnersZero topics st) :
    ∀ id p, p ∈ st.winners id → p ∈ allWinners topics st := by
  intro id p hp
  by_cases hid : id ∈ topicIds topics
  · rcases List.mem_map.mp hid with ⟨t, ht, rfl⟩
    unfold allWinners
    exact (mem_foldl_winners st topics [] p).mpr (Or.inr ⟨t, ht, hp⟩)
  · rw [hZ id hid] at hp
    simp at hp

/-- A fixed point of the resolution pass: at most one topic per player,
winners drawn from the candidate lists, empty winner sets outside the topic
list, bounded pointers, and every topic saturated. -/
def Good (topics : List Topic) (bl : String → List Cand)
    (st : AllocSt) : Prop :=
  AtMostOne topics st ∧ WinnersInList bl st ∧ WinnersZero topics st ∧
  IdxLe bl st ∧ Saturated topics bl st

/-- One resolution pass starting from any step-1-like state lands in a
`Good` state: the removal phase forces at-most-one, the refill phase
saturates every topic while preserving at-most-one. -/
theorem onePass_good (topics : List Topic) (bl : String → List Cand)
    (st : AllocSt) (hW : WinnersInList bl st) (hZ : WinnersZero topics st)
    (hIdx : IdxLe bl st) : Good topics bl (onePass topics bl st).1 := by
  unfold onePass
  dsimp only
  have hZ2 := removalApply_winnersZero topics bl st hZ
  have hinv : RefillInv topics bl (removalApply topics bl st,
      allWinners topics (removalApply topics bl st),
      removalChanged topics bl st) := by
    refine ⟨removal_atMostOne topics bl st hW,
      removalApply_winnersInList topics bl st hW, hZ2, ?_, ?_⟩
    · intro id
      rw [removalApply_nextIdx]
      exact hIdx id
    · intro id p hp
      exact allWinners_complete topics _ hZ2 id p hp
  obtain ⟨hinv2, _, hpost⟩ := refill_fold topics bl topics _
    (fun t ht => ht) hinv
  exact ⟨hinv2.1, hinv2.2.1, hinv2.2.2.1, hinv2.2.2.2.1,
    fun t ht => hpost t ht⟩

/-- On a `Good` state the resolution pass changes nothing and reports no
change. -/
theorem onePass_noop (topics : List Topic) (bl : String → List Cand)
    (st : AllocSt) (hg : Good topics bl st) :
    onePass topics bl st = (st, false) := by
  obtain ⟨hI1, hW, hZ, hIdx, hSat⟩ := hg
  unfold onePass
  dsimp only
  rw [removalChanged_false topics bl st hI1, removalApply_eq topics bl st hI1]
  rw [refill_noop bl topics st (allWinners topics st) false hSat]

/-- With any positive fuel, the resolution loop exits from a `Good` state
immediately via the no-change flag. -/
theorem resolveLoop_succ_good (topics : List Topic) (bl : String → List Cand)
    (st : AllocSt) (hg : Good topics bl st) (fuel : ℕ) :
    resolveLoop topics bl (fuel + 1) st = (st, true) := by
  simp only [resolveLoop, onePass_noop topics bl st hg]
  rfl

/-- From any step-1-like state and fuel at least two, the resolution loop
terminates via the no-change flag after at most one state-changing pass,
ending in the state produced by a single pass. -/
theorem resolveLoop_two (topics : List Topic) (bl : String → List Cand)
    (st : AllocSt) (hW : WinnersInList bl st) (hZ : WinnersZero topics st)
    (hIdx : IdxLe bl st) (fuel : ℕ) :
    resolveLoop topics bl (fuel + 2) st =
      ((onePass topics bl st).1, true) := by
  have hg := onePass_good topics bl st hW hZ hIdx
  have heq : fuel + 2 = (fuel + 1) + 1 := rfl
  rw [heq]
  simp only [resolveLoop]
  by_cases hc : (onePass topics bl st).2
  · rw [if_pos hc]
    exact resolveLoop_succ_good topics bl (onePass topics bl st).1 hg fuel
  · rw [if_neg hc]

/-- The removal phase only shrinks winner sets, so it preserves the
capacity bound. -/
theorem removalApply_capBound (topics : List Topic) (bl : String → List Cand)
    (st : AllocSt) (hcb : CapBound topics st) :
    CapBound topics (removalApply topics bl st) := by
  intro t ht
  unfold removalApply
  dsimp only
  by_cases hid : t.id ∈ topicIds topics
  · rw [if_pos hid]
    exact le_trans (List.length_filter_le _ _) (hcb t ht)
  · rw [if_neg hid]
    exact hcb t ht

/-- The refill of one topic does not touch other topic ids. -/
theorem refillTopic_winners_ne (bl : String → List Cand)
    (acc : AllocSt × List String × Bool) (t : Topic) (id : String)
    (h : id ≠ t.id) :
    (refillTopic bl acc t).1.winners id = acc.1.winners id := by
  unfold refillTopic
  dsimp only
  split
  · rfl
  · dsimp only
    rw [if_neg h]

/-- The refill of one topic never pushes its winner set past the topic's
capacity (when not already over it). -/
theorem refillTopic_winners_len (bl : String → List Cand)
    (acc : AllocSt × List String × Bool) (t : Topic)
    (hIdx : acc.1.nextIdx t.id ≤ (bl t.id).length) :
    ((refillTopic bl acc t).1.winners t.id).length ≤
      max (acc.1.winners t.id).length t.capacity := by
  unfold refillTopic
  dsimp only
  split
  · exact le_max_left _ _
  · dsimp only
    rw [if_pos rfl]
    obtain ⟨A, h1, h2, h3, h4, h5, h6, h7⟩ := refillLoop_spec (bl t.id)
      t.capacity ((bl t.id).length - acc.1.nextIdx t.id)
      (acc.1.nextIdx t.id) (acc.1.winners t.id) acc.2.1 acc.2.2
      hIdx (by omega)
    exact h7

/-- With no duplicate topic ids, the refill fold preserves the capacity
bound. -/
theorem refill_fold_cap (topics : List Topic) (bl : String → List Cand)
    (hnd : (topics.map Topic.id).Nodup) :
    ∀ (L : List Topic) (acc : AllocSt × List String × Bool),
    (∀ t ∈ L, t ∈ topics) → RefillInv topics bl acc →
    CapBound topics acc.1 →
    CapBound topics (L.foldl (refillTopic bl) acc).1 := by
  intro L
  induction L with
  | nil => intro acc _ _ hcb; exact hcb
  | cons t L ih =>
    intro acc hsub hinv hcb
    rw [List.foldl_cons]
    have ht : t ∈ topics := hsub t (List.mem_cons_self _ _)
    obtain ⟨hinv2, _, _⟩ := refillTopic_step topics bl acc t ht hinv
    apply ih _ (fun x hx => hsub x (List.mem_cons_of_mem _ hx)) hinv2
    intro t2 ht2
    by_cases he : t2.id = t.id
    · have ht2t : t2 = t := List.inj_on_of_nodup_map hnd ht2 ht he
      subst ht2t
      have hlen := refillTopic_winners_len bl acc t2 (hinv.2.2.2.1 t2.id)
      exact le_trans hlen (max_le (hcb t2 ht) (le_refl _))
    · rw [refillTopic_winners_ne bl acc t t2.id he]
      exact hcb t2 ht2

/-- With no duplicate topic ids, one resolution pass preserves the
capacity bound. -/
theorem onePass_capBound (topics : List Topic) (bl : String → List Cand)
    (st : AllocSt) (hnd : (topics.map Topic.id).Nodup)
    (hW : WinnersInList bl st) (hZ : WinnersZero topics st)
    (hIdx : IdxLe bl st) (hcb : CapBound topics st) :
    CapBound topics (onePass topics bl st).1 := by
  unfold onePass
  dsimp only
  have hZ2 := removalApply_winnersZero topics bl st hZ
  apply refill_fold_cap topics bl hnd topics _ (fun t ht => ht)
  · refine ⟨removal_atMostOne topics bl st hW,
      removalApply_winnersInList topics bl st hW, hZ2, ?_, ?_⟩
    · intro id
      rw [removalApply_nextIdx]
      exact hIdx id
    · intro id p hp
      exact allWinners_complete topics _ hZ2 id p hp
  · exact removalApply_capBound topics bl st hcb

/-- Every pair of an `alSet`-fold over keys `L` with values given by `f`
either was in the accumulator or has a key from `L` and value `f` of its
key. -/
theorem foldl_alSet_mem {α : Type} (f : String → α) :
    ∀ (L : List String) (acc : List (String × α)) (pr : String × α),
    pr ∈ L.foldl (fun a i => alSet a i (f i)) acc →
    pr ∈ acc ∨ (pr.1 ∈ L ∧ pr.2 = f pr.1) := by
  intro L
  induction L with
  | nil => intro acc pr h; exact Or.inl h
  | cons i L ih =>
    intro acc pr h
    rw [List.foldl_cons] at h
    rcases ih _ pr h with h2 | h2
    · rcases mem_alSet h2 with h3 | h3
      · rw [h3]
        exact Or.inr ⟨List.mem_cons_self _ _, rfl⟩
      · exact Or.inl h3
    · exact Or.inr ⟨List.mem_cons_of_mem _ h2.1, h2.2⟩

/-- Looking up any key of `L` in the `alSet`-fold yields `f` of that key
(provided the accumulator already respects `f`). -/
theorem foldl_alSet_get {α : Type} (f : String → α) :
    ∀ (L : List String) (acc : List (String × α)) (id : String),
    (∀ pr ∈ acc, pr.2 = f pr.1) →
    (id ∈ L ∨ (alGet acc id).isSome = true) →
    alGet (L.foldl (fun a i => alSet a i (f i)) acc) id = some (f id) := by
  intro L
  induction L with
  | nil =>
    intro acc id hacc hid
    rcases hid with hid | hid
    · simp at hid
    · rcases Option.isSome_iff_exists.mp hid with ⟨v, hv⟩
      have := hacc (id, v) (alGet_mem hv)
      dsimp only at this
      rw [List.foldl_nil, hv, this]
  | cons i L ih =>
    intro acc id hacc hid
    rw [List.foldl_cons]
    apply ih
    · intro pr hpr
      rcases mem_alSet hpr with h3 | h3
      · rw [h3]
      · exact hacc pr h3
    · rcases hid with hid | hid
      · rcases List.mem_cons.mp hid with rfl | hL
        · right
          rw [alGet_alSet_self]
          rfl
        · exact Or.inl hL
      · right
        rw [alGet_alSet_isSome]
        exact Or.inr hid

/-- The final allocation state computed by `computeWinners`: one resolution
pass applied to the tentative step-1 seating. -/
def finalState (topics : List Topic) (bids : BidsMap) : AllocSt :=
  (onePass topics (fun id => bidList bids id)
    (step1 topics (fun id => bidList bids id))).1

/-- With its fuel of 1000, the resolution loop exits via the no-change flag
(never the safety ceiling) and lands in `finalState`. -/
theorem resolveLoop_1000 (topics : List Topic) (bids : BidsMap) :
    resolveLoop topics (fun id => bidList bids id) 1000
      (step1 topics (fun id => bidList bids id)) =
    (finalState topics bids, true) := by
  have h : (1000 : ℕ) = 998 + 2 := rfl
  rw [h]
  exact resolveLoop_two topics _ _ (step1_winnersInList topics _)
    (step1_winnersZero topics _) (step1_idxLe topics _) 998

theorem finalState_good (topics : List Topic) (bids : BidsMap) :
    Good topics (fun id => bidList bids id) (finalState topics bids) :=
  onePass_good topics _ _ (step1_winnersInList topics _)
    (step1_winnersZero topics _) (step1_idxLe topics _)

theorem finalState_cap (topics : List Topic) (bids : BidsMap)
    (hnd : (topics.map Topic.id).Nodup) :
    CapBound topics (finalState topics bids) :=
  onePass_capBound topics _ _ hnd (step1_winnersInList topics _)
    (step1_winnersZero topics _) (step1_idxLe topics _)
    (step1_capBound topics _ hnd)

theorem computeWinners_winnersByTopic (topics : List Topic)
    (bids : BidsMap) :
    (computeWinners topics bids).winnersByTopic =
      topics.foldl (fun acc t =>
        alSet acc t.id ((finalState topics bids).winners t.id)) [] := by
  unfold computeWinners
  dsimp only
  rw [resolveLoop_1000]

/-- Every row of the winners-by-topic table carries a topic id from the
input list and that id's final winner set. -/
theorem winnersByTopic_lookup (topics : List Topic) (bids : BidsMap)
    (id : String) (ws : List String)
    (h : alGet (computeWinners topics bids).winnersByTopic id = some ws) :
    id ∈ topicIds topics ∧ ws = (finalState topics bids).winners id := by
  rw [computeWinners_winnersByTopic] at h
  rw [← List.foldl_map Topic.id
    (fun a i => alSet a i ((finalState topics bids).winners i)) topics []]
    at h
  rcases foldl_alSet_mem ((finalState topics bids).winners)
    (topics.map Topic.id) [] (id, ws) (alGet_mem h) with h2 | h2
  · simp at h2
  · exact ⟨h2.1, h2.2⟩

/-- Every topic of the input list has a row in the winners-by-topic table,
holding its final winner set. -/
theorem winnersByTopic_get (topics : List Topic) (bids : BidsMap)
    (t : Topic) (ht : t ∈ topics) :
    alGet (computeWinners topics bids).winnersByTopic t.id =
      some ((finalState topics bids).winners t.id) := by
  rw [computeWinners_winnersByTopic]
  rw [← List.foldl_map Topic.id
    (fun a i => alSet a i ((finalState topics bids).winners i)) topics []]
  exact foldl_alSet_get _ (topics.map Topic.id) [] t.id (by simp)
    (Or.inl (List.mem_map.mpr ⟨t, ht, rfl⟩))

/-- Every candidate of a topic's bid list stems from a stored bid of that
player on that topic whose floored-clamped amount is strictly positive. -/
theorem mem_bidList (bids : BidsMap) (id : String) (c : Cand)
    (hc : c ∈ bidList bids id) :
    ∃ pb b, (c.playerId, pb) ∈ bids ∧ alGet pb id = some b ∧
      c.amount = max 0 b.amount ∧ 0 < c.amount := by
  have hc2 : c ∈ rawCands bids id := (mem_stableSort candLE _ c).mp hc
  unfold rawCands at hc2
  rcases List.mem_filterMap.mp hc2 with ⟨pe, hpe, hmk⟩
  rcases halget : alGet pe.2 id with _ | b
  · rw [halget] at hmk
    simp at hmk
  · rw [halget] at hmk
    dsimp only at hmk
    by_cases hle : max 0 b.amount ≤ 0
    · rw [if_pos hle] at hmk
      simp at hmk
    · rw [if_neg hle] at hmk
      have hc3 := Option.some_inj.mp hmk
      subst hc3
      refine ⟨pe.2, b, ?_, halget, rfl, not_le.mp hle⟩
      have : (pe.1, pe.2) = pe := rfl
      rw [this]
      exact hpe

/-! ## Concrete inputs used by the scenario conjuncts, the witnesses and the
counterexamples -/

/-- The spec's clamp-scenario room: budget 100, one participant `p` holding
bids X:60 (ts 1) and Y:50 (ts 2). -/
def exRoom : Room :=
  { id := "R"
    hostId := some "p"
    config := { budget := 100, revealBids := true, allowJoinAfterLock := true }
    locked := false
    topics := [⟨"X", "X", 1⟩, ⟨"Y", "Y", 1⟩]
    players := [("p", ⟨"p", "P", 110⟩)]
    bids := [("p", [("X", ⟨60, 1⟩), ("Y", ⟨50, 2⟩)])] }

/-- A two-participant room: host `h`, participant `q`, one topic `X` of
capacity 1, default config, no bids yet. -/
def exRoom2 : Room :=
  { id := "R"
    hostId := some "h"
    config := { budget := 100, revealBids := true, allowJoinAfterLock := true }
    locked := false
    topics := [⟨"X", "X", 1⟩]
    players := [("h", ⟨"h", "H", 0⟩), ("q", ⟨"q", "Q", 0⟩)]
    bids := [("h", []), ("q", [])] }

/-- The two-participant room with bids locked. -/
def exRoomLocked : Room :=
  { exRoom2 with locked := true }

/-- Topic list with the id `A` repeated (capacities 1 and 2). -/
def dupTopics : List Topic :=
  [⟨"A", "T", 1⟩, ⟨"A", "T", 2⟩]

/-- Two players bidding 5 and 3 on topic `A`. -/
def dupBids : BidsMap :=
  [("p1", [("A", ⟨5, 0⟩)]), ("p2", [("A", ⟨3, 0⟩)])]

/-- Topic list with distinct ids `A` and `B`. -/
def wTopics : List Topic :=
  [⟨"A", "T", 1⟩, ⟨"B", "T", 1⟩]

/-! ## The claims -/

/-- **C2.** After every event sequence applied to a fresh room, every stored
bid amount is non-negative and every remaining participant's total stored
bid amount is at most the room's budget. -/
theorem C2_budget_invariant (rid : String) (evs : List Inbound) :
    BidsNonneg (applyEvents (freshRoom rid) evs) ∧
    ∀ q, (alGet (applyEvents (freshRoom rid) evs).players q).isSome = true →
      totalOf (applyEvents (freshRoom rid) evs) q ≤
        (applyEvents (freshRoom rid) evs).config.budget := by
  have h := inv_applyEvents (freshRoom rid) evs (inv_freshRoom rid)
  exact ⟨h.2.2.1, h.2.2.2.2⟩

/-- **C3.** When a participant's (re-floored) total exceeds the budget, the
clamp rewrites their bid map to exactly: the entries sorted ascending by
amount (ties broken larger-timestamp-first), trimmed front-to-back by
min(amount, remaining overage), every timestamp set to the clamp's execution
time; in the spec's scenario (budget 100, bids X:60 and Y:50) the result is
X:60, Y:40. -/
theorem C3_clamp_order :
    (∀ (now : ℕ) (room : Room) (pid : String) (per : PerTopic),
      alGet room.bids pid = some per →
      ¬ entSum (per.map (fun e => (⟨e.1, max 0 e.2.amount, e.2.ts⟩ : CEntry)))
          ≤ room.config.budget →
      alGet (clampBidsToBudget now room pid).bids pid = some
        ((trimEntries (stableSort clampLE (per.map (fun e =>
            (⟨e.1, max 0 e.2.amount, e.2.ts⟩ : CEntry))))
          (entSum (per.map (fun e =>
            (⟨e.1, max 0 e.2.amount, e.2.ts⟩ : CEntry))) -
            room.config.budget)).map
          (fun e => (e.topicId, (⟨e.amount, now⟩ : Bid))))) ∧
    alGet ((alGet (clampBidsToBudget 9 exRoom "p").bids "p").getD []) "X" =
      some ⟨60, 9⟩ ∧
    alGet ((alGet (clampBidsToBudget 9 exRoom "p").bids "p").getD []) "Y" =
      some ⟨40, 9⟩ := by
  refine ⟨?_, by decide, by decide⟩
  intro now room pid per hper htot
  unfold clampBidsToBudget
  split
  · rename_i h
    rw [h] at hper
    exact absurd hper (by simp)
  · rename_i per2 h
    rw [h] at hper
    cases Option.some_inj.mp hper
    dsimp only
    rw [if_neg htot, recomputeSpent_bids]
    dsimp only
    rw [alGet_alSet_self]

/-- **C5.** For every topics/bids input the resolution loop exits via a
no-change pass, never the 1000-pass safety ceiling: the state after one pass
is a fixed point (no player wins two topics, and a further pass reports no
change), and every fuel of at least two passes already returns that final
state with the no-change flag set. -/
theorem C5_loop_terminates (topics : List Topic) (bids : BidsMap) :
    resolveLoop topics (fun id => bidList bids id) 1000
        (step1 topics (fun id => bidList bids id)) =
      (finalState topics bids, true) ∧
    AtMostOne topics (finalState topics bids) ∧
    onePass topics (fun id => bidList bids id) (finalState topics bids) =
      (finalState topics bids, false) ∧
    ∀ fuel, resolveLoop topics (fun id => bidList bids id) (fuel + 2)
        (step1 topics (fun id => bidList bids id)) =
      (finalState topics bids, true) := by
  refine ⟨resolveLoop_1000 topics bids, (finalState_good topics bids).1,
    onePass_noop topics _ _ (finalState_good topics bids), ?_⟩
  intro fuel
  exact resolveLoop_two topics _ _ (step1_winnersInList topics _)
    (step1_winnersZero topics _) (step1_idxLe topics _) fuel

/-- **C8.** With a non-negative budget (which every reachable room has), the
budget clamp is idempotent — reapplying it changes neither the bid map nor
the spent value — and a participant whose re-floored total is already within
budget keeps their stored bids untouched. -/
theorem C8_clamp_idempotent (now now2 : ℕ) (room : Room) (pid : String)
    (hb : 0 ≤ room.config.budget) :
    clampBidsToBudget now2 (clampBidsToBudget now room pid) pid =
      clampBidsToBudget now room pid ∧
    ∀ per, alGet room.bids pid = some per →
      entSum (per.map (fun e => (⟨e.1, max 0 e.2.amount, e.2.ts⟩ : CEntry))) ≤
        room.config.budget →
      (clampBidsToBudget now room pid).bids = room.bids := by
  refine ⟨clampBidsToBudget_idem now now2 room pid hb, ?_⟩
  intro per hper htot
  apply clamp_bids_within
  intro per2 hper2
  rw [hper] at hper2
  cases Option.some_inj.mp hper2
  exact htot

/-- Witness for C8 on the clamp-scenario room. -/
theorem C8_witness :
    0 ≤ exRoom.config.budget ∧
    clampBidsToBudget 10 (clampBidsToBudget 9 exRoom "p") "p" =
      clampBidsToBudget 9 exRoom "p" :=
  ⟨by decide, (C8_clamp_idempotent 9 10 exRoom "p" (by decide)).1⟩

/-- **C4.** The compute_winners event never mutates the room, so a second
invocation with no intervening mutation sees the same state, and any winners
payloads the two events emit are identical: computeWinners is a pure
function of the room's topics and bids. -/
theorem C4_compute_winners_pure (room : Room) (pid pid2 : String)
    (now now2 : ℕ) (genId genId2 : ℕ → String) :
    (step room pid now genId Msg.compute_winners).room = room ∧
    ∀ res res2,
      Out.winners res ∈ (step room pid now genId Msg.compute_winners).outs →
      Out.winners res2 ∈
        (step (step room pid now genId Msg.compute_winners).room pid2 now2
          genId2 Msg.compute_winners).outs →
      res = res2 := by
  have hroom : ∀ (p : String) (n : ℕ) (g : ℕ → String),
      (step room p n g Msg.compute_winners).room = room := by
    intro p n g
    simp only [step]
    split
    · rfl
    · split <;> rfl
  have key : ∀ (p : String) (n : ℕ) (g : ℕ → String) (r : WinnersResult),
      Out.winners r ∈ (step room p n g Msg.compute_winners).outs →
      r = computeWinners room.topics room.bids := by
    intro p n g r hr
    revert hr
    simp only [step]
    split
    · intro hr
      simp at hr
    · split
      · intro hr
        simp at hr
      · intro hr
        simp only [List.mem_singleton, Out.winners.injEq] at hr
        exact hr
  refine ⟨hroom pid now genId, ?_⟩
  intro res res2 h1 h2
  rw [hroom pid now genId] at h2
  rw [key pid now genId res h1, key pid2 now2 genId2 res2 h2]

/-- **C6.** A host's set_config leaves the budget an integer in [1, 10000]
(the supplied value floored then clamped, whatever it is), keeps the
previous in-range budget when the field is unset, and updates the two
boolean flags exactly when a boolean was supplied. -/
theorem C6_set_config (room : Room) (pid : String) (now : ℕ)
    (genId : ℕ → String) (budget : Option ℚ) (rb aj : Option Bool)
    (hp : (alGet room.players pid).isSome = true)
    (hh : room.hostId = some pid) :
    (step room pid now genId (Msg.set_config budget rb aj)).room.config =
      (⟨normBudget budget room.config.budget, rb.getD room.config.revealBids,
        aj.getD room.config.allowJoinAfterLock⟩ : Config) ∧
    1 ≤ (step room pid now genId
      (Msg.set_config budget rb aj)).room.config.budget ∧
    (step room pid now genId
      (Msg.set_config budget rb aj)).room.config.budget ≤ 10000 ∧
    (budget = none → 1 ≤ room.config.budget → room.config.budget ≤ 10000 →
      (step room pid now genId
        (Msg.set_config budget rb aj)).room.config.budget =
        room.config.budget) := by
  rcases Option.isSome_iff_exists.mp hp with ⟨pv, hpv⟩
  have hcfg : (step room pid now genId
      (Msg.set_config budget rb aj)).room.config =
      (⟨normBudget budget room.config.budget, rb.getD room.config.revealBids,
        aj.getD room.config.allowJoinAfterLock⟩ : Config) := by
    simp only [step]
    rw [if_neg (by simp [hpv]), if_neg (by simp [hh])]
    dsimp only
    rw [foldStep_config _ (fun r q => clampBidsToBudget_config now r q) _ _]
  refine ⟨hcfg, ?_, ?_, ?_⟩
  · rw [hcfg]
    exact normBudget_lower budget room.config.budget
  · rw [hcfg]
    exact normBudget_upper budget room.config.budget
  · intro hnone h1 h2
    subst hnone
    rw [hcfg]
    show max 1 (min 10000 room.config.budget) = room.config.budget
    omega

/-- Witness for C6: the host caps an oversized budget at 10000. -/
theorem C6_witness :
    (alGet exRoom2.players "h").isSome = true ∧
    exRoom2.hostId = some "h" ∧
    (step exRoom2 "h" 0 (fun _ => "") (Msg.set_config (some 20000) none
      none)).room.config = ⟨10000, true, true⟩ := by
  refine ⟨by decide, by decide, ?_⟩
  have h := C6_set_config exRoom2 "h" 0 (fun _ => "") (some 20000) none none
    (by decide) (by decide)
  rw [h.1]
  decide

/-- **C9.** A bid event on a locked room, or one naming a topic id not in
the current topic list, is a complete no-op: the room is unchanged and no
notification is emitted. -/
theorem C9_bid_noop (room : Room) (pid : String) (now : ℕ)
    (genId : ℕ → String) (topicId : Option String) (amount : Option ℚ)
    (h : room.locked = true ∨
      room.topics.any (fun t => decide (t.id = topicId.getD "")) = false) :
    (step room pid now genId (Msg.bid topicId amount)).room = room ∧
    (step room pid now genId (Msg.bid topicId amount)).outs = [] := by
  simp only [step]
  by_cases hjoin : (alGet room.players pid).isNone
  · rw [if_pos hjoin]
    exact ⟨rfl, rfl⟩
  · rw [if_neg hjoin]
    by_cases hl2 : room.locked
    · rw [if_pos hl2]
      exact ⟨rfl, rfl⟩
    · rw [if_neg hl2]
      rcases h with hl | ht
      · exact absurd hl hl2
      · rw [if_pos (by simp [ht])]
        exact ⟨rfl, rfl⟩

/-- Witness for C9: a bid into the locked room changes nothing. -/
theorem C9_witness :
    exRoomLocked.locked = true ∧
    (step exRoomLocked "h" 3 (fun _ => "") (Msg.bid (some "X")
      (some 40))).room = exRoomLocked :=
  ⟨by decide, (C9_bid_noop exRoomLocked "h" 3 (fun _ => "") (some "X")
    (some 40) (Or.inl (by decide))).1⟩

/-- **C10.** When the host disconnects from a room that keeps other
participants, the departing participant and their bids are removed, the new
host is the first remaining participant in insertion order, and the room is
not deleted. -/
theorem C10_host_handoff (room : Room) (pid : String) (now : ℕ)
    (genId : ℕ → String) (hhost : room.hostId = some pid)
    (hjoined : (alGet room.players pid).isSome = true)
    (hrest : (alDelete room.players pid).isEmpty = false) :
    (step room pid now genId Msg.disconnect).room.players =
      alDelete room.players pid ∧
    (step room pid now genId Msg.disconnect).room.bids =
      alDelete room.bids pid ∧
    (step room pid now genId Msg.disconnect).room.hostId =
      (alDelete room.players pid).head?.map Prod.fst ∧
    (step room pid now genId Msg.disconnect).evict = false := by
  rcases Option.isSome_iff_exists.mp hjoined with ⟨pv, hpv⟩
  simp only [step, hpv]
  rw [if_pos hhost, if_neg (by simp [hrest])]
  exact ⟨rfl, rfl, rfl, rfl⟩

/-- Witness for C10: after host `h` leaves the two-participant room, `q` is
host and the room survives. -/
theorem C10_witness :
    exRoom2.hostId = some "h" ∧
    (step exRoom2 "h" 7 (fun _ => "") Msg.disconnect).room.hostId =
      some "q" ∧
    (step exRoom2 "h" 7 (fun _ => "") Msg.disconnect).evict = false := by
  refine ⟨by decide, ?_, ?_⟩
  · have h := C10_host_handoff exRoom2 "h" 7 (fun _ => "") (by decide)
      (by decide) (by decide)
    rw [h.2.2.1]
    decide
  · exact (C10_host_handoff exRoom2 "h" 7 (fun _ => "") (by decide)
      (by decide) (by decide)).2.2.2

/-- **C7 (amended).** A valid bid (joined participant, unlocked room,
existing topic) stores, under that participant's existing bid keys being
distinct, an entry for the topic whose amount is a non-negative integer at
most the floored-and-clamped input — the subsequent budget clamp may have
reduced it below that input — overwriting any prior bid for the topic, with
timestamp equal to the event time. -/
theorem C7_bid_stored (room : Room) (pid : String) (now : ℕ)
    (genId : ℕ → String) (tid : String) (amount : Option ℚ)
    (hp : (alGet room.players pid).isSome = true)
    (hl : room.locked = false)
    (ht : room.topics.any (fun t => decide (t.id = tid)) = true)
    (hnd : (((alGet room.bids pid).getD []).map Prod.fst).Nodup) :
    ∃ per2 b, alGet (step room pid now genId
        (Msg.bid (some tid) amount)).room.bids pid = some per2 ∧
      alGet per2 tid = some b ∧ 0 ≤ b.amount ∧
      b.amount ≤ floorAmount amount ∧ b.ts = now := by
  rcases Option.isSome_iff_exists.mp hp with ⟨pv, hpv⟩
  simp only [step]
  rw [if_neg (by simp [hpv]), if_neg (by simp [hl])]
  simp only [Option.getD_some]
  rw [if_neg (by simp [ht])]
  obtain ⟨per2, b, hget, hbtid, hnn, hle, hts, _⟩ :=
    clamp_entry_after now
      { room with bids := alSet room.bids pid (alSet ((alGet room.bids pid).getD []) tid ⟨floorAmount amount, now⟩) }
      pid tid
      (alSet ((alGet room.bids pid).getD []) tid ⟨floorAmount amount, now⟩)
      (alGet_alSet_self _ _ _)
      (nodup_keys_alSet tid _ hnd)
      ⟨floorAmount amount, now⟩
      (alGet_alSet_self _ _ _)
      (le_max_left 0 _)
  refine ⟨per2, b, hget, hbtid, hnn, hle, ?_⟩
  rcases hts with h | h
  · exact h
  · exact h

/-- Counterexample to C7 as stated: the stored amount is not always the
floored input — with budget 100, a bid of 150 on topic X is stored as
100. -/
theorem C7_counterexample :
    ¬ (∀ (room : Room) (pid : String) (now : ℕ) (genId : ℕ → String)
        (tid : String) (amount : Option ℚ),
      (alGet room.players pid).isSome = true → room.locked = false →
      room.topics.any (fun t => decide (t.id = tid)) = true →
      ∃ per2, alGet (step room pid now genId
          (Msg.bid (some tid) amount)).room.bids pid = some per2 ∧
        alGet per2 tid = some ⟨floorAmount amount, now⟩) := by
  intro h
  obtain ⟨per2, hper2, hb⟩ := h exRoom2 "h" 5 (fun _ => "") "X" (some 150)
    (by decide) (by decide) (by decide)
  have hcomp : alGet (step exRoom2 "h" 5 (fun _ => "")
      (Msg.bid (some "X") (some 150))).room.bids "h" =
      some [("X", ⟨100, 5⟩)] := by decide
  rw [hcomp] at hper2
  cases Option.some_inj.mp hper2
  revert hb
  decide

/-- Witness for C7: a within-budget bid of 60 is stored as 60 with the
event's timestamp. -/
theorem C7_witness :
    (alGet exRoom2.players "h").isSome = true ∧
    exRoom2.locked = false ∧
    exRoom2.topics.any (fun t => decide (t.id = "X")) = true ∧
    ((((alGet exRoom2.bids "h").getD []).map Prod.fst).Nodup) ∧
    ∃ per2 b, alGet (step exRoom2 "h" 4 (fun _ => "")
        (Msg.bid (some "X") (some 60))).room.bids "h" = some per2 ∧
      alGet per2 "X" = some b ∧ 0 ≤ b.amount ∧
      b.amount ≤ floorAmount (some 60) ∧ b.ts = 4 :=
  ⟨by decide, by decide, by decide, by decide,
    C7_bid_stored exRoom2 "h" 4 (fun _ => "") "X" (some 60) (by decide)
      (by decide) (by decide) (by decide)⟩

/-- **C1 (amended).** With pairwise-distinct topic ids, computeWinners
guarantees for every bid table: no participant appears in two different
topics' winner sets, every winner set is within its topic's capacity, and
every winner placed a strictly positive (floored) bid on the assigned
topic. -/
theorem C1_winners_sound (topics : List Topic) (bids : BidsMap)
    (hnd : (topics.map Topic.id).Nodup) :
    (∀ p id1 id2 ws1 ws2,
      alGet (computeWinners topics bids).winnersByTopic id1 = some ws1 →
      alGet (computeWinners topics bids).winnersByTopic id2 = some ws2 →
      p ∈ ws1 → p ∈ ws2 → id1 = id2) ∧
    (∀ t ∈ topics, ∀ ws,
      alGet (computeWinners topics bids).winnersByTopic t.id = some ws →
      ws.length ≤ t.capacity) ∧
    (∀ id ws,
      alGet (computeWinners topics bids).winnersByTopic id = some ws →
      ∀ p ∈ ws, ∃ pb b, (p, pb) ∈ bids ∧ alGet pb id = some b ∧
        0 < max 0 b.amount) := by
  obtain ⟨hI1, hW, hZ, hIdx, hSat⟩ := finalState_good topics bids
  refine ⟨?_, ?_, ?_⟩
  · intro p id1 id2 ws1 ws2 h1 h2 hp1 hp2
    obtain ⟨hm1, he1⟩ := winnersByTopic_lookup topics bids id1 ws1 h1
    obtain ⟨hm2, he2⟩ := winnersByTopic_lookup topics bids id2 ws2 h2
    exact hI1 p id1 id2 hm1 hm2 (he1 ▸ hp1) (he2 ▸ hp2)
  · intro t ht ws hws
    obtain ⟨hm, he⟩ := winnersByTopic_lookup topics bids t.id ws hws
    rw [he]
    exact finalState_cap topics bids hnd t ht
  · intro id ws hws p hp
    obtain ⟨hm, he⟩ := winnersByTopic_lookup topics bids id ws hws
    rw [he] at hp
    rcases List.mem_map.mp (hW id p hp) with ⟨c, hc, rfl⟩
    obtain ⟨pb, b, hmem, hget, hamt, hpos⟩ := mem_bidList bids id c hc
    refine ⟨pb, b, hmem, hget, ?_⟩
    rw [← hamt]
    exact hpos

/-- Counterexample to C1 as stated: with the topic id `A` repeated
(capacities 1 and 2), the shared winner set of id `A` holds two players,
violating the capacity-1 bound. -/
theorem C1_counterexample :
    ¬ (∀ (topics : List Topic) (bids : BidsMap),
      (∀ p id1 id2 ws1 ws2,
        alGet (computeWinners topics bids).winnersByTopic id1 = some ws1 →
        alGet (computeWinners topics bids).winnersByTopic id2 = some ws2 →
        p ∈ ws1 → p ∈ ws2 → id1 = id2) ∧
      (∀ t ∈ topics, ∀ ws,
        alGet (computeWinners topics bids).winnersByTopic t.id = some ws →
        ws.length ≤ t.capacity) ∧
      (∀ id ws,
        alGet (computeWinners topics bids).winnersByTopic id = some ws →
        ∀ p ∈ ws, ∃ pb b, (p, pb) ∈ bids ∧ alGet pb id = some b ∧
          0 < max 0 b.amount)) := by
  intro h
  have hcap := (h dupTopics dupBids).2.1 ⟨"A", "T", 1⟩ (by decide)
    ["p1", "p2"] (by decide)
  exact absurd hcap (by decide)

/-- Witness for C1 on distinct topic ids `A`, `B`. -/
theorem C1_witness :
    ((wTopics.map Topic.id).Nodup) ∧
    (∀ t ∈ wTopics, ∀ ws,
      alGet (computeWinners wTopics dupBids).winnersByTopic t.id = some ws →
      ws.length ≤ t.capacity) :=
  ⟨by decide, (C1_winners_sound wTopics dupBids (by decide)).2.1⟩

end AuctionVote
